import Mathlib

/-!
Shallow embedding of the `wkkkis-hooks` CLI (source: `src/cli.ts`, the single
source file of the repository).  JavaScript strings are modelled as `List Char`;
absolute filesystem paths as lists of path components (`List (List Char)`),
i.e. the `/`-separated pieces of a normalized absolute POSIX path; the
filesystem as an association list from paths to file contents.  Network
collaborators (`getJSON`, `getText`) are modelled as pure functions supplied in
an environment, matching the spec's treatment of them as external collaborators.
-/

namespace WkkkisHooks

/-- A path component (one piece of a `/`-separated path). -/
abbrev Comp := List Char

/-- An absolute path, as its list of components. -/
abbrev Path := List Comp

/-- Split a character list at every occurrence of `sep` (like
`String.prototype.split` with a single-character separator). -/
def splitOnChar (sep : Char) : List Char → List (List Char)
  | [] => [[]]
  | c :: rest =>
    if c = sep then [] :: splitOnChar sep rest
    else
      match splitOnChar sep rest with
      | [] => [[c]]
      | h :: t => (c :: h) :: t

/-- Join components with `/` (the forward-slash rendering of a relative path,
as `path.posix` produces). -/
def joinSlash : List Comp → List Char
  | [] => []
  | [c] => c
  | c :: c' :: rest => c ++ '/' :: joinSlash (c' :: rest)

/-- One step of Node's `path.resolve` component normalization: `""` and `"."`
are skipped, `".."` pops the last component (staying at the root), anything
else is pushed. -/
def resolveStep (acc : Path) (c : Comp) : Path :=
  if c = [] ∨ c = ".".data then acc
  else if c = "..".data then acc.dropLast
  else acc ++ [c]

/-- Apply a sequence of raw components to a base absolute path
(`path.resolve`'s normalization loop). -/
def applyComps (base : Path) (cs : List Comp) : Path :=
  cs.foldl resolveStep base

/-- Node's `path.resolve(base, s)` for an already-normalized absolute `base`:
an `s` starting with `/` restarts from the root, otherwise `s`'s components
are applied to `base`. -/
def jsResolve (base : Path) (s : List Char) : Path :=
  if s.head? = some '/' then applyComps [] (splitOnChar '/' s)
  else applyComps base (splitOnChar '/' s)

/-- `path.resolve(base, a, b)` (used by the source's variadic `cwd(...p)`
helper with two segments). -/
def cwd2 (base : Path) (a b : List Char) : Path :=
  jsResolve (jsResolve base a) b

/-- The component sequence of Node's `path.relative(f, t)` for normalized
absolute `f`, `t`: walk off the uncommon part of `f` with `..` and then down
into `t`. -/
def relParts : Path → Path → List Comp
  | [], t => t
  | a :: f', [] => List.replicate (a :: f').length "..".data
  | a :: f', b :: t' =>
    if a = b then relParts f' t'
    else List.replicate (a :: f').length "..".data ++ (b :: t')

/-- The source's `toPosixPath`: replace every backslash by a forward slash. -/
def toPosixPath (s : List Char) : List Char :=
  s.map (fun c => if c = '\\' then '/' else c)

/-- JavaScript's `\s` character class (as used by the rewriter's regexes). -/
def isWsJS (c : Char) : Bool :=
  c = ' ' ∨ c = '\t' ∨ c = '\n' ∨ c = '\r' ∨ c = '\x0b' ∨ c = '\x0c' ∨
  c = '\u00a0' ∨ c = '\u1680' ∨ ('\u2000' ≤ c ∧ c ≤ '\u200a') ∨
  c = '\u2028' ∨ c = '\u2029' ∨ c = '\u202f' ∨ c = '\u205f' ∨
  c = '\u3000' ∨ c = '\ufeff'

/-- The `['"]` character class. -/
def isQuote (c : Char) : Bool := c = '\'' ∨ c = '"'

/-- Literal-string matcher: consume `w` at the head of `s` (`escapeRegex`
makes the alias prefix a literal in the source's regex, so the prefix is
matched literally here). -/
def litP (w s : List Char) : Option (List Char) :=
  if w.isPrefixOf s then some (s.drop w.length) else none

/-- `\s+`: a nonempty maximal run of whitespace. -/
def ws1P (s : List Char) : Option (List Char × List Char) :=
  let r := s.takeWhile isWsJS
  if r.isEmpty then none else some (r, s.dropWhile isWsJS)

/-- `\s*`: a maximal (possibly empty) run of whitespace. -/
def ws0P (s : List Char) : List Char × List Char :=
  (s.takeWhile isWsJS, s.dropWhile isWsJS)

/-- `['"]`: one quote character. -/
def quoteP : List Char → Option (Char × List Char)
  | [] => none
  | c :: rest => if isQuote c then some (c, rest) else none

/-- `([^'"]+)`: a nonempty maximal run of non-quote characters (the subpath
capture group; maximality is equivalent to the regex's greedy semantics since
the following atom is a quote, which the class excludes). -/
def pathP (s : List Char) : Option (List Char × List Char) :=
  let r := s.takeWhile (fun c => !isQuote c)
  if r.isEmpty then none else some (r, s.dropWhile (fun c => !isQuote c))

/-- Shape 1: `(from\s+['"])P([^'"]+)(['"])`.  Returns
(left group, subpath, right group, rest of input). -/
def alt1 (pre s : List Char) : Option (List Char × List Char × List Char × List Char) := do
  let s1 ← litP "from".data s
  let (w, s2) ← ws1P s1
  let (q, s3) ← quoteP s2
  let s4 ← litP pre s3
  let (x, s5) ← pathP s4
  let (q2, s6) ← quoteP s5
  pure ("from".data ++ w ++ [q], x, [q2], s6)

/-- Shape 2: `(import\s*\(\s*['"])P([^'"]+)(['"]\s*\))`. -/
def alt2 (pre s : List Char) : Option (List Char × List Char × List Char × List Char) := do
  let s1 ← litP "import".data s
  let s3 ← litP "(".data (ws0P s1).2
  let (q, s5) ← quoteP (ws0P s3).2
  let s6 ← litP pre s5
  let (x, s7) ← pathP s6
  let (q2, s8) ← quoteP s7
  let s10 ← litP ")".data (ws0P s8).2
  pure ("import".data ++ (ws0P s1).1 ++ '(' :: (ws0P s3).1 ++ [q], x,
    q2 :: (ws0P s8).1 ++ [')'], s10)

/-- Shape 3: `(export\s*\*\s*from\s*['"])P([^'"]+)(['"])`. -/
def alt3 (pre s : List Char) : Option (List Char × List Char × List Char × List Char) := do
  let s1 ← litP "export".data s
  let s3 ← litP "*".data (ws0P s1).2
  let s5 ← litP "from".data (ws0P s3).2
  let (q, s7) ← quoteP (ws0P s5).2
  let s8 ← litP pre s7
  let (x, s9) ← pathP s8
  let (q2, s10) ← quoteP s9
  pure ("export".data ++ (ws0P s1).1 ++ '*' :: (ws0P s3).1 ++ "from".data ++
    (ws0P s5).1 ++ [q], x, [q2], s10)

/-- Shape 4: `(require\(\s*['"])P([^'"]+)(['"]\s*\))`. -/
def alt4 (pre s : List Char) : Option (List Char × List Char × List Char × List Char) := do
  let s1 ← litP "require(".data s
  let (q, s3) ← quoteP (ws0P s1).2
  let s4 ← litP pre s3
  let (x, s5) ← pathP s4
  let (q2, s6) ← quoteP s5
  let s8 ← litP ")".data (ws0P s6).2
  pure ("require(".data ++ (ws0P s1).1 ++ [q], x, q2 :: (ws0P s6).1 ++ [')'], s8)

/-- The combined alternation of the four import shapes, tried in the order the
source joins them with `|`. -/
def tryMatch (pre s : List Char) : Option (List Char × List Char × List Char × List Char) :=
  alt1 pre s <|> alt2 pre s <|> alt3 pre s <|> alt4 pre s

/-- `isPrefixOf` agrees with list-prefix decomposition. -/
theorem isPrefixOf_eq (w s : List Char) : w.isPrefixOf s = true ↔ ∃ t, s = w ++ t := by
  induction w generalizing s with
  | nil => simp [List.isPrefixOf]
  | cons c w ih =>
    cases s with
    | nil => simp [List.isPrefixOf]
    | cons d s =>
      simp only [List.isPrefixOf, Bool.and_eq_true, beq_iff_eq, ih, List.cons_append,
        List.cons.injEq]
      constructor
      · rintro ⟨rfl, t, rfl⟩; exact ⟨t, rfl, rfl⟩
      · rintro ⟨t, rfl, rfl⟩; exact ⟨rfl, t, rfl⟩

theorem litP_sound {w s r : List Char} (h : litP w s = some r) : s = w ++ r := by
  unfold litP at h
  split at h
  · next hp =>
    obtain ⟨t, rfl⟩ := (isPrefixOf_eq w s).mp hp
    simp only [Option.some.injEq] at h
    subst h
    rw [List.drop_left]
  · exact absurd h (by simp)

theorem ws1P_sound {s w r : List Char} (h : ws1P s = some (w, r)) :
    s = w ++ r ∧ w ≠ [] := by
  simp only [ws1P] at h
  split at h
  · exact absurd h (by simp)
  · next hne =>
    simp only [Option.some.injEq, Prod.mk.injEq] at h
    obtain ⟨rfl, rfl⟩ := h
    exact ⟨(List.takeWhile_append_dropWhile _ _).symm, by simpa using hne⟩

theorem ws0P_sound (s : List Char) : s = (ws0P s).1 ++ (ws0P s).2 :=
  (List.takeWhile_append_dropWhile _ _).symm

theorem quoteP_sound {s : List Char} {q : Char} {r : List Char}
    (h : quoteP s = some (q, r)) : s = q :: r := by
  cases s with
  | nil => simp [quoteP] at h
  | cons c rest =>
    by_cases hq : isQuote c = true
    · simp only [quoteP, hq, if_true, Option.some.injEq, Prod.mk.injEq] at h
      obtain ⟨rfl, rfl⟩ := h
      rfl
    · simp [quoteP, hq] at h

theorem pathP_sound {s x r : List Char} (h : pathP s = some (x, r)) :
    s = x ++ r ∧ x ≠ [] := by
  simp only [pathP] at h
  split at h
  · exact absurd h (by simp)
  · next hne =>
    simp only [Option.some.injEq, Prod.mk.injEq] at h
    obtain ⟨rfl, rfl⟩ := h
    exact ⟨(List.takeWhile_append_dropWhile _ _).symm, by simpa using hne⟩

theorem alt1_sound {pre s l x r rest : List Char}
    (h : alt1 pre s = some (l, x, r, rest)) :
    s = l ++ pre ++ x ++ r ++ rest ∧ x ≠ [] ∧ l ≠ [] := by
  unfold alt1 at h
  simp only [bind, Option.bind_eq_some, Option.pure_def, Option.some.injEq,
    Prod.mk.injEq] at h
  obtain ⟨s1, h1, ⟨w, s2⟩, h2, ⟨q, s3⟩, h3, s4, h4, ⟨x', s5⟩, h5, ⟨q2, s6⟩, h6,
    hl, hx, hr, hrest⟩ := h
  dsimp only at h3 h4 h6 hl hx hr hrest
  obtain ⟨h2a, h2b⟩ := ws1P_sound h2
  obtain ⟨h5a, h5b⟩ := pathP_sound h5
  subst hl hx hr hrest
  rw [litP_sound h1, h2a, quoteP_sound h3, litP_sound h4, h5a, quoteP_sound h6]
  refine ⟨by simp, h5b, by simp⟩

theorem alt2_sound {pre s l x r rest : List Char}
    (h : alt2 pre s = some (l, x, r, rest)) :
    s = l ++ pre ++ x ++ r ++ rest ∧ x ≠ [] ∧ l ≠ [] := by
  unfold alt2 at h
  simp only [bind, Option.bind_eq_some, Option.pure_def, Option.some.injEq,
    Prod.mk.injEq] at h
  obtain ⟨s1, h1, s3, h2, ⟨q, s5⟩, h3, s6, h4, ⟨x', s7⟩, h5, ⟨q2, s8⟩, h6,
    s10, h7, hl, hx, hr, hrest⟩ := h
  dsimp only at h3 h4 h6 h7 hl hx hr hrest
  obtain ⟨w1, s2, hw1⟩ : ∃ a b, ws0P s1 = (a, b) := ⟨_, _, rfl⟩
  obtain ⟨w2, s4, hw2⟩ : ∃ a b, ws0P s3 = (a, b) := ⟨_, _, rfl⟩
  obtain ⟨w3, s9, hw3⟩ : ∃ a b, ws0P s8 = (a, b) := ⟨_, _, rfl⟩
  have hs1 : s1 = w1 ++ s2 := by have := ws0P_sound s1; rwa [hw1] at this
  have hs3 : s3 = w2 ++ s4 := by have := ws0P_sound s3; rwa [hw2] at this
  have hs8 : s8 = w3 ++ s9 := by have := ws0P_sound s8; rwa [hw3] at this
  rw [hw1] at h2 hl
  rw [hw2] at h3 hl
  rw [hw3] at h7 hr
  dsimp only at h2 h3 h7 hl hr
  obtain ⟨h5a, h5b⟩ := pathP_sound h5
  subst hl hx hr hrest
  rw [litP_sound h1, hs1, litP_sound h2, hs3, quoteP_sound h3, litP_sound h4,
    h5a, quoteP_sound h6, hs8, litP_sound h7]
  refine ⟨by simp, h5b, by simp⟩

theorem alt3_sound {pre s l x r rest : List Char}
    (h : alt3 pre s = some (l, x, r, rest)) :
    s = l ++ pre ++ x ++ r ++ rest ∧ x ≠ [] ∧ l ≠ [] := by
  unfold alt3 at h
  simp only [bind, Option.bind_eq_some, Option.pure_def, Option.some.injEq,
    Prod.mk.injEq] at h
  obtain ⟨s1, h1, s3, h2, s5, h3, ⟨q, s7⟩, h4, s8, h5, ⟨x', s9⟩, h6,
    ⟨q2, s10⟩, h7, hl, hx, hr, hrest⟩ := h
  dsimp only at h4 h5 h7 hl hx hr hrest
  obtain ⟨w1, s2, hw1⟩ : ∃ a b, ws0P s1 = (a, b) := ⟨_, _, rfl⟩
  obtain ⟨w2, s4, hw2⟩ : ∃ a b, ws0P s3 = (a, b) := ⟨_, _, rfl⟩
  obtain ⟨w3, s6, hw3⟩ : ∃ a b, ws0P s5 = (a, b) := ⟨_, _, rfl⟩
  have hs1 : s1 = w1 ++ s2 := by have := ws0P_sound s1; rwa [hw1] at this
  have hs3 : s3 = w2 ++ s4 := by have := ws0P_sound s3; rwa [hw2] at this
  have hs5 : s5 = w3 ++ s6 := by have := ws0P_sound s5; rwa [hw3] at this
  rw [hw1] at h2 hl
  rw [hw2] at h3 hl
  rw [hw3] at h4 hl
  dsimp only at h2 h3 h4 hl
  obtain ⟨h6a, h6b⟩ := pathP_sound h6
  subst hl hx hr hrest
  rw [litP_sound h1, hs1, litP_sound h2, hs3, litP_sound h3, hs5,
    quoteP_sound h4, litP_sound h5, h6a, quoteP_sound h7]
  refine ⟨by simp, h6b, by simp⟩

theorem alt4_sound {pre s l x r rest : List Char}
    (h : alt4 pre s = some (l, x, r, rest)) :
    s = l ++ pre ++ x ++ r ++ rest ∧ x ≠ [] ∧ l ≠ [] := by
  unfold alt4 at h
  simp only [bind, Option.bind_eq_some, Option.pure_def, Option.some.injEq,
    Prod.mk.injEq] at h
  obtain ⟨s1, h1, ⟨q, s3⟩, h2, s4, h3, ⟨x', s5⟩, h4, ⟨q2, s6⟩, h5,
    s8, h6, hl, hx, hr, hrest⟩ := h
  dsimp only at h2 h3 h5 h6 hl hx hr hrest
  obtain ⟨w1, s2, hw1⟩ : ∃ a b, ws0P s1 = (a, b) := ⟨_, _, rfl⟩
  obtain ⟨w2, s7, hw2⟩ : ∃ a b, ws0P s6 = (a, b) := ⟨_, _, rfl⟩
  have hs1 : s1 = w1 ++ s2 := by have := ws0P_sound s1; rwa [hw1] at this
  have hs6 : s6 = w2 ++ s7 := by have := ws0P_sound s6; rwa [hw2] at this
  rw [hw1] at h2 hl
  rw [hw2] at h6 hr
  dsimp only at h2 h6 hl hr
  obtain ⟨h4a, h4b⟩ := pathP_sound h4
  subst hl hx hr hrest
  rw [litP_sound h1, hs1, quoteP_sound h2, litP_sound h3, h4a,
    quoteP_sound h5, hs6, litP_sound h6]
  refine ⟨by simp, h4b, by simp⟩

/-- If the combined alternation fires, one of the four shapes fired. -/
theorem tryMatch_cases {pre s : List Char}
    {v : List Char × List Char × List Char × List Char}
    (h : tryMatch pre s = some v) :
    alt1 pre s = some v ∨ alt2 pre s = some v ∨ alt3 pre s = some v ∨
      alt4 pre s = some v := by
  unfold tryMatch at h
  cases ha : alt1 pre s <;> rw [ha] at h
  · simp only [Option.none_orElse] at h
    cases hb : alt2 pre s <;> rw [hb] at h
    · simp only [Option.none_orElse] at h
      cases hc : alt3 pre s <;> rw [hc] at h
      · simp only [Option.none_orElse] at h
        exact Or.inr (Or.inr (Or.inr h))
      · simp only [Option.some_orElse] at h
        exact Or.inr (Or.inr (Or.inl h))
    · simp only [Option.some_orElse] at h
      exact Or.inr (Or.inl h)
  · simp only [Option.some_orElse] at h
    exact Or.inl h

/-- A successful match decomposes the input as
`left ++ prefix ++ subpath ++ right ++ rest`, with nonempty subpath and left
group. -/
theorem tryMatch_sound {pre s l x r rest : List Char}
    (h : tryMatch pre s = some (l, x, r, rest)) :
    s = l ++ pre ++ x ++ r ++ rest ∧ x ≠ [] ∧ l ≠ [] := by
  rcases tryMatch_cases h with h' | h' | h' | h'
  · exact alt1_sound h'
  · exact alt2_sound h'
  · exact alt3_sound h'
  · exact alt4_sound h'

theorem tryMatch_shrink {pre s l x r rest : List Char}
    (h : tryMatch pre s = some (l, x, r, rest)) : rest.length < s.length := by
  obtain ⟨hs, hx, hl⟩ := tryMatch_sound h
  subst hs
  rcases l with _ | ⟨c, l⟩
  · exact absurd rfl hl
  · simp [List.length_append]
    omega

/-- The replacement the source's callback computes for one matched subpath:
resolve it against the alias target, relativize to the destination file's
directory, convert to forward slashes, and ensure a leading dot. -/
def rewriteTarget (targetAbs destDir : Path) (subpath : List Char) : List Char :=
  let abs := jsResolve targetAbs subpath
  let rel := toPosixPath (joinSlash (relParts destDir abs))
  if rel.head? = some '.' then rel else '.' :: '/' :: rel

/-- The global-regex replacement loop of `code.replace(re, ...)`: scan left to
right; at each position fire the first matching shape (replacing only the
subpath span) and continue after the match, otherwise copy one character. -/
def scanRewrite (pre : List Char) (targetAbs destDir : Path) : List Char → List Char
  | [] => []
  | c :: rest =>
    match h : tryMatch pre (c :: rest) with
    | some (l, x, r, rest') =>
      l ++ rewriteTarget targetAbs destDir x ++ r ++
        scanRewrite pre targetAbs destDir rest'
    | none => c :: scanRewrite pre targetAbs destDir rest
termination_by s => s.length
decreasing_by
  · exact tryMatch_shrink h
  · simp

/-- `aliasPrefix.endsWith("/") ? aliasPrefix : aliasPrefix + "/"`. -/
def normPre (p : List Char) : List Char :=
  if p.getLast? = some '/' then p else p ++ ['/']

/-- `rewriteAliasImports` (src/cli.ts): pass through when either alias setting
is absent or empty (JavaScript falsiness of `undefined` and `""`), otherwise
rewrite every matched import of the four shapes. -/
def rewriteAliasImports (code : List Char) (aliasPrefix aliasTarget : Option (List Char))
    (destAbsFile projectRootAbs : Path) : List Char :=
  match aliasPrefix, aliasTarget with
  | some ap, some tg =>
    if ap.isEmpty || tg.isEmpty then code
    else scanRewrite (normPre ap) (jsResolve projectRootAbs tg)
      destAbsFile.dropLast code
  | some _, none => code
  | none, _ => code

/-- A normalized path component: nonempty, not a dot entry, and free of
separator and backslash characters. -/
def cleanComp (c : Comp) : Prop :=
  c ≠ [] ∧ c ≠ ".".data ∧ c ≠ "..".data ∧ '/' ∉ c ∧ '\\' ∉ c

instance : DecidablePred cleanComp := fun c => by unfold cleanComp; infer_instance

/-- All components of the path are clean. -/
def cleanPath (p : Path) : Prop := ∀ c ∈ p, cleanComp c

instance : DecidablePred cleanPath := fun p => List.decidableBAll _ p

theorem applyComps_append (b : Path) (xs ys : List Comp) :
    applyComps b (xs ++ ys) = applyComps (applyComps b xs) ys :=
  List.foldl_append ..

theorem applyComps_push {cs : List Comp} (b : Path)
    (h : ∀ c ∈ cs, c ≠ [] ∧ c ≠ ".".data ∧ c ≠ "..".data) :
    applyComps b cs = b ++ cs := by
  induction cs generalizing b with
  | nil => simp [applyComps]
  | cons c rest ih =>
    obtain ⟨h1, h2, h3⟩ := h c (by simp)
    have hstep : resolveStep b c = b ++ [c] := by
      unfold resolveStep
      rw [if_neg (by tauto), if_neg h3]
    simp only [applyComps, List.foldl_cons]
    rw [show List.foldl resolveStep (resolveStep b c) rest =
      applyComps (resolveStep b c) rest from rfl]
    rw [hstep, ih (b ++ [c]) (fun c' hc => h c' (List.mem_cons_of_mem _ hc))]
    simp

theorem applyComps_pop (b f : Path) :
    applyComps (b ++ f) (List.replicate f.length "..".data) = b := by
  induction f using List.reverseRecOn generalizing b with
  | nil => simp [applyComps]
  | append_singleton f' a ih =>
    rw [List.length_append, List.length_cons, List.length_nil, Nat.zero_add,
      List.replicate_succ]
    simp only [applyComps, List.foldl_cons]
    have hstep : resolveStep (b ++ (f' ++ [a])) "..".data = b ++ f' := by
      unfold resolveStep
      rw [if_neg (by decide), if_pos rfl, ← List.append_assoc,
        List.dropLast_concat]
    rw [hstep]
    exact ih b

theorem relParts_resolve (f t pre : Path)
    (ht : ∀ c ∈ t, c ≠ [] ∧ c ≠ ".".data ∧ c ≠ "..".data) :
    applyComps (pre ++ f) (relParts f t) = pre ++ t := by
  induction f generalizing t pre with
  | nil => rw [relParts, List.append_nil, applyComps_push _ ht]
  | cons a f' ih =>
    cases t with
    | nil =>
      rw [relParts, List.append_nil]
      exact applyComps_pop pre (a :: f')
    | cons b t' =>
      rw [relParts]
      by_cases hab : a = b
      · rw [if_pos hab, hab]
        have := ih t' (pre ++ [b]) (fun c hc => ht c (List.mem_cons_of_mem _ hc))
        simpa using this
      · rw [if_neg hab, applyComps_append, applyComps_pop pre (a :: f'),
          applyComps_push _ ht]

theorem relParts_eq_nil {f t : Path} (h : relParts f t = []) : f = t := by
  induction f generalizing t with
  | nil => rw [relParts] at h; exact h.symm
  | cons a f' ih =>
    cases t with
    | nil => rw [relParts] at h; simp [List.replicate] at h
    | cons b t' =>
      rw [relParts] at h
      by_cases hab : a = b
      · rw [if_pos hab] at h; rw [hab, ih h]
      · rw [if_neg hab] at h; simp [List.replicate] at h

theorem relParts_mem {f t : Path} {c : Comp} (h : c ∈ relParts f t) :
    c = "..".data ∨ c ∈ t := by
  induction f generalizing t with
  | nil => rw [relParts] at h; exact Or.inr h
  | cons a f' ih =>
    cases t with
    | nil =>
      rw [relParts] at h
      exact Or.inl (List.eq_of_mem_replicate h)
    | cons b t' =>
      rw [relParts] at h
      by_cases hab : a = b
      · rw [if_pos hab] at h
        rcases ih h with h' | h'
        · exact Or.inl h'
        · exact Or.inr (by simp [h'])
      · rw [if_neg hab] at h
        rcases List.mem_append.mp h with h' | h'
        · exact Or.inl (List.eq_of_mem_replicate h')
        · exact Or.inr h'

theorem splitOnChar_mem {sep : Char} {s c : List Char}
    (h : c ∈ splitOnChar sep s) : sep ∉ c ∧ ∀ ch ∈ c, ch ∈ s := by
  induction s generalizing c with
  | nil =>
    simp only [splitOnChar, List.mem_singleton] at h
    subst h
    simp
  | cons a rest ih =>
    simp only [splitOnChar] at h
    split at h
    · rcases List.mem_cons.mp h with rfl | h'
      · simp
      · obtain ⟨h1, h2⟩ := ih h'
        exact ⟨h1, fun ch hch => List.mem_cons_of_mem _ (h2 ch hch)⟩
    · next hne =>
      split at h
      · next hsp =>
        simp only [List.mem_singleton] at h
        subst h
        refine ⟨fun hc => hne (List.mem_singleton.mp hc).symm, ?_⟩
        intro ch hch
        exact (List.mem_singleton.mp hch) ▸ List.mem_cons_self a rest
      · next hd tl hsp =>
        rcases List.mem_cons.mp h with rfl | h'
        · have hhd : hd ∈ splitOnChar sep rest := by
            rw [hsp]; exact List.mem_cons_self _ _
          obtain ⟨h1, h2⟩ := ih hhd
          constructor
          · intro hc
            rcases List.mem_cons.mp hc with heq2 | hc'
            · exact hne heq2.symm
            · exact h1 hc'
          · intro ch hch
            rcases List.mem_cons.mp hch with rfl | hch'
            · exact List.mem_cons_self _ _
            · exact List.mem_cons_of_mem _ (h2 ch hch')
        · have hc : c ∈ splitOnChar sep rest := by
            rw [hsp]; exact List.mem_cons_of_mem _ h'
          obtain ⟨h1, h2⟩ := ih hc
          exact ⟨h1, fun ch hch => List.mem_cons_of_mem _ (h2 ch hch)⟩

theorem splitOnChar_no_sep {sep : Char} {c : List Char} (h : sep ∉ c) :
    splitOnChar sep c = [c] := by
  induction c with
  | nil => rfl
  | cons a rest ih =>
    have has : ¬a = sep := fun e => h (by simp [e])
    have hrest : sep ∉ rest := fun e => h (List.mem_cons_of_mem _ e)
    simp only [splitOnChar, if_neg has, ih hrest]

theorem splitOnChar_append_sep {sep : Char} {c t : List Char} (h : sep ∉ c) :
    splitOnChar sep (c ++ sep :: t) = c :: splitOnChar sep t := by
  induction c with
  | nil => simp [splitOnChar]
  | cons a rest ih =>
    have has : ¬a = sep := fun e => h (by simp [e])
    have hrest : sep ∉ rest := fun e => h (List.mem_cons_of_mem _ e)
    simp only [List.cons_append, splitOnChar, if_neg has, List.append_eq, ih hrest]

theorem splitJoin {l : List Comp} (hne : l ≠ []) (h : ∀ c ∈ l, '/' ∉ c) :
    splitOnChar '/' (joinSlash l) = l := by
  induction l with
  | nil => exact absurd rfl hne
  | cons c rest ih =>
    cases rest with
    | nil => exact splitOnChar_no_sep (h c (by simp))
    | cons c' rest' =>
      rw [joinSlash, splitOnChar_append_sep (h c (by simp)),
        ih (by simp) (fun d hd => h d (List.mem_cons_of_mem _ hd))]

theorem toPosixPath_id {s : List Char} (h : '\\' ∉ s) : toPosixPath s = s := by
  induction s with
  | nil => rfl
  | cons a rest ih =>
    have ha : ¬a = '\\' := fun e => h (by simp [e])
    simp only [toPosixPath, List.map_cons, if_neg ha]
    rw [show List.map _ rest = toPosixPath rest from rfl,
      ih (fun e => h (List.mem_cons_of_mem _ e))]

theorem joinSlash_mem {l : List Comp} {ch : Char} (h : ch ∈ joinSlash l) :
    ch = '/' ∨ ∃ c ∈ l, ch ∈ c := by
  induction l with
  | nil => cases h
  | cons c rest ih =>
    cases rest with
    | nil => exact Or.inr ⟨c, by simp, h⟩
    | cons c' rest' =>
      rw [joinSlash] at h
      rcases List.mem_append.mp h with h' | h'
      · exact Or.inr ⟨c, by simp, h'⟩
      · rcases List.mem_cons.mp h' with rfl | h''
        · exact Or.inl rfl
        · rcases ih h'' with h3 | ⟨d, hd, hchd⟩
          · exact Or.inl h3
          · exact Or.inr ⟨d, List.mem_cons_of_mem _ hd, hchd⟩

theorem applyComps_clean {b : Path} {cs : List Comp}
    (hb : cleanPath b) (hcs : ∀ c ∈ cs, '/' ∉ c ∧ '\\' ∉ c) :
    cleanPath (applyComps b cs) := by
  induction cs generalizing b with
  | nil => exact hb
  | cons c rest ih =>
    simp only [applyComps, List.foldl_cons]
    refine @ih (resolveStep b c) ?_ (fun d hd => hcs d (List.mem_cons_of_mem _ hd))
    unfold resolveStep
    split
    · exact hb
    · split
      · exact fun d hd => hb d (List.mem_of_mem_dropLast hd)
      · next h1 h2 =>
        intro d hd
        rcases List.mem_append.mp hd with hd' | hd'
        · exact hb d hd'
        · have hdc : d = c := List.mem_singleton.mp hd'
          subst hdc
          push_neg at h1
          exact ⟨h1.1, h1.2, h2, (hcs d (by simp)).1, (hcs d (by simp)).2⟩

theorem cleanPath_nil : cleanPath [] := fun c hc => absurd hc (List.not_mem_nil c)

theorem jsResolve_clean {base : Path} {s : List Char}
    (hb : cleanPath base) (hs : '\\' ∉ s) : cleanPath (jsResolve base s) := by
  have hcs : ∀ c ∈ splitOnChar '/' s, '/' ∉ c ∧ '\\' ∉ c := fun c hc =>
    ⟨(splitOnChar_mem hc).1, fun hm => hs ((splitOnChar_mem hc).2 _ hm)⟩
  unfold jsResolve
  split
  · exact applyComps_clean cleanPath_nil hcs
  · exact applyComps_clean hb hcs

theorem resolveStep_dot (b : Path) : resolveStep b ".".data = b := by
  unfold resolveStep
  rw [if_pos (Or.inr rfl)]

theorem applyComps_relParts {destDir t : Path} (ht : cleanPath t) :
    applyComps destDir (relParts destDir t) = t := by
  have := relParts_resolve destDir t []
    (fun c hc => ⟨(ht c hc).1, (ht c hc).2.1, (ht c hc).2.2.1⟩)
  simpa using this

/-- Path correctness of a single alias rewrite: resolving the produced
relative specifier from the destination file's directory reaches the same
absolute path as resolving the matched subpath against the alias target. -/
theorem rewriteTarget_resolve {targetAbs destDir : Path} {x : List Char}
    (hT : cleanPath targetAbs) (hx : '\\' ∉ x) :
    jsResolve destDir (rewriteTarget targetAbs destDir x) =
      jsResolve targetAbs x := by
  have habsclean : cleanPath (jsResolve targetAbs x) := jsResolve_clean hT hx
  have hcomps : ∀ c ∈ relParts destDir (jsResolve targetAbs x),
      '/' ∉ c ∧ '\\' ∉ c := by
    intro c hc
    rcases relParts_mem hc with rfl | hc'
    · exact ⟨by decide, by decide⟩
    · exact ⟨(habsclean c hc').2.2.2.1, (habsclean c hc').2.2.2.2⟩
  have hbs : '\\' ∉ joinSlash (relParts destDir (jsResolve targetAbs x)) := by
    intro hmem
    rcases joinSlash_mem hmem with h | ⟨c, hc, hin⟩
    · exact absurd h (by decide)
    · exact (hcomps c hc).2 hin
  simp only [rewriteTarget, toPosixPath_id hbs]
  rcases hrel : relParts destDir (jsResolve targetAbs x) with _ | ⟨c0, rest0⟩
  · have hif : (if (joinSlash ([] : List Comp)).head? = some '.' then
        joinSlash ([] : List Comp) else '.' :: '/' :: joinSlash ([] : List Comp)) =
        ['.', '/'] := by simp [joinSlash]
    rw [hif, show jsResolve destDir ['.', '/'] = destDir from rfl]
    exact relParts_eq_nil hrel
  · have hsplit : splitOnChar '/' (joinSlash (c0 :: rest0)) = c0 :: rest0 :=
      splitJoin (by simp) (fun c hc => (hcomps c (by rw [hrel]; exact hc)).1)
    have happly : applyComps destDir (c0 :: rest0) = jsResolve targetAbs x := by
      rw [← hrel]
      exact applyComps_relParts habsclean
    by_cases hhead : (joinSlash (c0 :: rest0)).head? = some '.'
    · rw [if_pos hhead]
      have hLHS : jsResolve destDir (joinSlash (c0 :: rest0)) =
          applyComps destDir (c0 :: rest0) := by
        unfold jsResolve
        rw [if_neg (by rw [hhead]; simp), hsplit]
      rw [hLHS]
      exact happly
    · rw [if_neg hhead]
      have hsp2 : splitOnChar '/' ('.' :: '/' :: joinSlash (c0 :: rest0)) =
          ".".data :: splitOnChar '/' (joinSlash (c0 :: rest0)) := by
        simp [splitOnChar]
      have hLHS : jsResolve destDir ('.' :: '/' :: joinSlash (c0 :: rest0)) =
          applyComps destDir (".".data :: c0 :: rest0) := by
        unfold jsResolve
        rw [if_neg (by simp), hsp2, hsplit]
      rw [hLHS]
      have hdot : applyComps destDir (".".data :: c0 :: rest0) =
          applyComps destDir (c0 :: rest0) := by
        show applyComps (resolveStep destDir ".".data) (c0 :: rest0) =
          applyComps destDir (c0 :: rest0)
        rw [resolveStep_dot]
      rw [hdot]
      exact happly

theorem scanRewrite_nil (pre : List Char) (t d : Path) :
    scanRewrite pre t d [] = [] := by
  rw [scanRewrite]

theorem scanRewrite_cons_match {pre : List Char} {t d : Path} {c : Char}
    {rest l x r rest' : List Char}
    (h : tryMatch pre (c :: rest) = some (l, x, r, rest')) :
    scanRewrite pre t d (c :: rest) =
      l ++ rewriteTarget t d x ++ r ++ scanRewrite pre t d rest' := by
  rw [scanRewrite]
  split
  · next heq =>
    rw [h] at heq
    simp only [Option.some.injEq, Prod.mk.injEq] at heq
    obtain ⟨rfl, rfl, rfl, rfl⟩ := heq
    rfl
  · next heq =>
    rw [h] at heq
    cases heq

theorem scanRewrite_cons_none {pre : List Char} {t d : Path} {c : Char}
    {rest : List Char} (h : tryMatch pre (c :: rest) = none) :
    scanRewrite pre t d (c :: rest) = c :: scanRewrite pre t d rest := by
  rw [scanRewrite]
  split
  · next heq =>
    rw [h] at heq
    cases heq
  · rfl

/-- If no suffix of the code matches any of the four shapes, the scan copies
the code unchanged. -/
theorem scanRewrite_id {pre : List Char} {t d : Path} {code : List Char}
    (h : ∀ s ∈ code.tails, tryMatch pre s = none) :
    scanRewrite pre t d code = code := by
  induction code with
  | nil => exact scanRewrite_nil ..
  | cons c rest ih =>
    rw [scanRewrite_cons_none (h _ ((List.mem_tails _ _).mpr (List.suffix_refl _)))]
    rw [ih (fun s hs => h s ((List.mem_tails _ _).mpr
      (((List.mem_tails _ _).mp hs).trans (List.suffix_cons c rest))))]

/-- `[a-z0-9-]` under the regex's `/i` flag (ASCII case folding). -/
def isIdChar (c : Char) : Bool :=
  (('a' ≤ c && c ≤ 'z') || ('A' ≤ c && c ≤ 'Z') || ('0' ≤ c && c ≤ '9') || c == '-')

/-- Case-insensitive check for the literal `hook:`. -/
def hookTag (c1 c2 c3 c4 c5 : Char) : Bool :=
  (c1 == 'h' || c1 == 'H') && (c2 == 'o' || c2 == 'O') &&
  (c3 == 'o' || c3 == 'O') && (c4 == 'k' || c4 == 'K') && c5 == ':'

/-- The `([0-9]+\\.[0-9]+\\.[0-9]+)` capture group after `@`; greedy `+` runs
are maximal since `.` and the following characters are not digits. -/
def matchVer3 (r2 : List Char) : Option (List Char) :=
  let d1 := r2.takeWhile Char.isDigit
  if d1 = [] then none
  else
    match r2.dropWhile Char.isDigit with
    | '.' :: r4 =>
      let d2 := r4.takeWhile Char.isDigit
      if d2 = [] then none
      else
        match r4.dropWhile Char.isDigit with
        | '.' :: r6 =>
          let d3 := r6.takeWhile Char.isDigit
          if d3 = [] then none else some (d1 ++ '.' :: d2 ++ '.' :: d3)
        | _ => none
    | _ => none

/-- Try the pattern `hook:([a-z0-9-]+)@([0-9]+\\.[0-9]+\\.[0-9]+)/i` anchored at
the current position; the greedy id run is maximal since `@` is outside the
class. -/
def matchHookAt : List Char → Option (List Char × List Char)
  | c1 :: c2 :: c3 :: c4 :: c5 :: rest =>
    if hookTag c1 c2 c3 c4 c5 then
      let idp := rest.takeWhile isIdChar
      if idp = [] then none
      else
        match rest.dropWhile isIdChar with
        | '@' :: r2 => (matchVer3 r2).map (fun v => (idp, v))
        | _ => none
    else none
  | _ => none

/-- First match of the header pattern, scanning left to right
(`String.prototype.match` with a non-global regex). -/
def findHook : List Char → Option (List Char × List Char)
  | [] => none
  | c :: rest =>
    match matchHookAt (c :: rest) with
    | some r => some r
    | none => findHook rest

/-- The decoder side of the version-header codec: pattern match over the
first 2048 characters of the content (`content.slice(0, 2048)`). -/
def parseHeader (content : List Char) : Option (List Char × List Char) :=
  findHook (content.take 2048)

/-- The encoder side: the header line `installHook` prepends. -/
def headerLine (id ver rv : List Char) : List Char :=
  "/* Installed via wkkkis-hooks | hook:".data ++ id ++ '@' :: ver ++
    " | registry:".data ++ rv ++ " */\n".data

/-- JavaScript `+s` coercion of a string to a number, restricted to the
integral decimal literals that version components are (whitespace-trimmed;
empty means `0`; a non-numeric remainder is `NaN`, modelled as `none`). -/
def jsToNumber (s : List Char) : Option Int :=
  let t := ((s.dropWhile isWsJS).reverse.dropWhile isWsJS).reverse
  if t.isEmpty then some 0
  else if t.all Char.isDigit then
    some (Int.ofNat (t.foldl (fun a c => a * 10 + (c.toNat - '0'.toNat)) 0))
  else
    match t with
    | '+' :: r =>
      if !r.isEmpty && r.all Char.isDigit then
        some (Int.ofNat (r.foldl (fun a c => a * 10 + (c.toNat - '0'.toNat)) 0))
      else none
    | '-' :: r =>
      if !r.isEmpty && r.all Char.isDigit then
        some (-Int.ofNat (r.foldl (fun a c => a * 10 + (c.toNat - '0'.toNat)) 0))
      else none
    | _ => none

/-- `pa[i] || 0`: an absent element (`undefined`) and `NaN` are falsy, and
`0 || 0` is `0`, so every non-number collapses to `0`. -/
def orZero : Option (Option Int) → Int
  | some (some v) => v
  | _ => 0

/-- `a.split(".").map((n) => +n)`. -/
def versionParts (s : List Char) : List (Option Int) :=
  (splitOnChar '.' s).map jsToNumber

/-- `cmpSemver` (src/cli.ts): first nonzero difference of the first three
numeric components. -/
def cmpSemver (a b : List Char) : Int :=
  let pa := versionParts a
  let pb := versionParts b
  let d0 := orZero pa[0]? - orZero pb[0]?
  if d0 ≠ 0 then d0
  else
    let d1 := orZero pa[1]? - orZero pb[1]?
    if d1 ≠ 0 then d1
    else
      let d2 := orZero pa[2]? - orZero pb[2]?
      if d2 ≠ 0 then d2 else 0

/-- One file descriptor from a hook's `meta.json` (`{from, to}`; both field names are
Lean keywords, hence the trailing underscores). -/
structure HookFile where
  from_ : List Char
  to_ : List Char
deriving DecidableEq

/-- Per-entry metadata (the fields the modelled operations read). -/
structure HookMeta where
  id : List Char
  name : List Char
  version : Option (List Char)
  files : List HookFile
deriving DecidableEq

/-- One registry entry. -/
structure HookEntry where
  id : List Char
  path : List Char
deriving DecidableEq

/-- The fetched registry snapshot. -/
structure Registry where
  baseUrl : List Char
  hooks : List HookEntry
  version : Option (List Char)
deriving DecidableEq

/-- External collaborators (network): the registry snapshot, `meta.json` per
entry path, and raw text per URL, as pure functions. -/
structure Env where
  registry : Registry
  metaOf : List Char → HookMeta
  textOf : List Char → List Char

/-- `hooks.config.json`, parsed. -/
structure ProjectConfig where
  baseDir : List Char
  addIndex : Bool
  stripUseClient : Bool
  aliasPrefix : Option (List Char)
  aliasTarget : Option (List Char)
deriving DecidableEq

def DEFAULT_CFG : ProjectConfig := ⟨"src/hooks".data, true, false, none, none⟩

/-- The filesystem: an association list from absolute paths to file contents
(directories are implicit; enumeration order stands in for `readdir` order). -/
abbrev FS := List (Path × List Char)

def FS.lookup (fs : FS) (p : Path) : Option (List Char) :=
  (List.find? (fun e => e.1 == p) fs).map (fun e => e.2)

def FS.write (fs : FS) (p : Path) (c : List Char) : FS :=
  (p, c) :: List.filter (fun e => !(e.1 == p)) fs

def FS.erase (fs : FS) (p : Path) : FS :=
  List.filter (fun e => !(e.1 == p)) fs

/-- The mutable world: files plus the persisted configuration (the JSON
serialization of `hooks.config.json` is abstracted to the typed value). -/
structure World where
  fs : FS
  cfg : Option ProjectConfig
deriving DecidableEq

/-- `path.parse(p).name`: the final component without its extension (a dot at
position 0 does not start an extension). -/
def fileBaseName (p : Path) : List Char :=
  let c := (p.getLast?).getD []
  match c.reverse.findIdx? (fun ch => ch = '.') with
  | none => c
  | some k =>
    let i := c.length - 1 - k
    if i = 0 then c else c.take i

/-- `` `${filePath}.bak` ``. -/
def bakPath (p : Path) : Path :=
  p.dropLast ++ [((p.getLast?).getD []) ++ ".bak".data]

/-- `remapToBaseDir`: replace a leading `src/hooks` or `hooks` (the regex
`^(?:src\/)?hooks`) of the normalized destination by the configured base
directory. -/
def remapToBaseDir (originalTo baseDir : List Char) : List Char :=
  let norm := toPosixPath originalTo
  let bd := toPosixPath baseDir
  if "src/hooks".data.isPrefixOf norm then bd ++ norm.drop 9
  else if "hooks".data.isPrefixOf norm then bd ++ norm.drop 5
  else norm

/-- `cwd(remapToBaseDir(f.to, baseDir))`. -/
def destPathOf (cwdP : Path) (baseDir : List Char) (f : HookFile) : Path :=
  jsResolve cwdP (remapToBaseDir f.to_ baseDir)

/-- `cwd(baseDir, idxName)`. -/
def indexPath (cwdP : Path) (baseDir idxName : List Char) : Path :=
  cwd2 cwdP baseDir idxName

/-- The suffix after the last `'\n'` of a whitespace run, if any: the greedy
`\s*\r?\n` of the `use client` regex consumes exactly through that point. -/
def afterLastNl : List Char → Option (List Char)
  | [] => none
  | c :: rest =>
    match afterLastNl rest with
    | some r => some r
    | none => if c = '\n' then some rest else none

/-- `removeUseClient`: strip one leading `"use client";` directive (regex
`^\s*['"]use client['"];\s*\r?\n`, quotes matched independently). -/
def removeUseClient (src : List Char) : List Char :=
  match src.dropWhile isWsJS with
  | q1 :: r1 =>
    if isQuote q1 then
      if "use client".data.isPrefixOf r1 then
        match r1.drop 10 with
        | q2 :: r2 =>
          if isQuote q2 then
            match r2 with
            | ';' :: r3 =>
              match afterLastNl (r3.takeWhile isWsJS) with
              | some tailw => tailw ++ r3.dropWhile isWsJS
              | none => src
            | _ => src
          else src
        | _ => src
      else src
    else src
  | _ => src

/-- The exact re-export statement for a base name. -/
def exportStmt (base : List Char) : List Char :=
  "export * from \"./".data ++ base ++ "\";".data

/-- The line `installHook` appends to the index. -/
def exportLine (base : List Char) : List Char := exportStmt base ++ ['\n']

/-- `String.prototype.includes`. -/
def containsSub (needle : List Char) : List Char → Bool
  | [] => needle.isPrefixOf []
  | c :: t => needle.isPrefixOf (c :: t) || containsSub needle t

/-- JavaScript line terminators (after any of these, `^` matches under `/m`). -/
def isLineTerm (c : Char) : Bool :=
  c == '\n' || c == '\r' || c == '\u2028' || c == '\u2029'

/-- The trailing `\r?\n?` of the removal regex. -/
def dropLineTerm : List Char → List Char
  | '\r' :: '\n' :: r => r
  | '\r' :: r => r
  | '\n' :: r => r
  | s => s

/-- Split at the first line terminator (inclusive). -/
def splitFirstLT : List Char → Option (List Char × List Char)
  | [] => none
  | c :: rest =>
    if isLineTerm c then some ([c], rest)
    else (splitFirstLT rest).map (fun p => (c :: p.1, p.2))

theorem splitFirstLT_sound {s a b : List Char} (h : splitFirstLT s = some (a, b)) :
    s = a ++ b ∧ b.length < s.length := by
  induction s generalizing a b with
  | nil => simp [splitFirstLT] at h
  | cons c rest ih =>
    simp only [splitFirstLT] at h
    split at h
    · simp only [Option.some.injEq, Prod.mk.injEq] at h
      obtain ⟨rfl, rfl⟩ := h
      exact ⟨rfl, by simp⟩
    · simp only [Option.map_eq_some'] at h
      obtain ⟨⟨a', b'⟩, h1, h2⟩ := h
      simp only [Prod.mk.injEq] at h2
      obtain ⟨rfl, rfl⟩ := h2
      obtain ⟨he, hlen⟩ := ih h1
      subst he
      exact ⟨rfl, by simp; omega⟩

/-- Literal-statement removal: try the statement at each line start, removing
it plus one optional trailing terminator — the behavior of the compiled
removal regex when the interpolated base has no regex metacharacters (the
bridge is `remFirstRe_std` below; the regex itself is modeled by
`compileRemove`/`remFirstRe`).  Implemented with a character-count fuel (each
failed line strictly shrinks the rest, so `s.length` steps always suffice;
see `remFirstAux_irrel`). -/
def remFirstAux (S : List Char) : Nat → List Char → Option (List Char)
  | 0, s =>
    if S.isPrefixOf s then some (dropLineTerm (s.drop S.length)) else none
  | n + 1, s =>
    if S.isPrefixOf s then some (dropLineTerm (s.drop S.length))
    else
      match splitFirstLT s with
      | none => none
      | some (a, b) => (remFirstAux S n b).map (fun r => a ++ r)

/-- The literal-statement removal applied to a whole content. -/
def remFirst (S s : List Char) : Option (List Char) := remFirstAux S s.length s

theorem remFirstAux_irrel (S : List Char) :
    ∀ n m (s : List Char), s.length ≤ n → s.length ≤ m →
      remFirstAux S n s = remFirstAux S m s := by
  intro n
  induction n with
  | zero =>
    intro m s h1 h2
    have hs : s = [] := List.length_eq_zero.mp (Nat.le_zero.mp h1)
    subst hs
    cases m with
    | zero => rfl
    | succ m => cases hp : S.isPrefixOf [] <;> simp [remFirstAux, hp, splitFirstLT]
  | succ n ih =>
    intro m s h1 h2
    cases m with
    | zero =>
      have hs : s = [] := List.length_eq_zero.mp (Nat.le_zero.mp h2)
      subst hs
      cases hp : S.isPrefixOf [] <;> simp [remFirstAux, hp, splitFirstLT]
    | succ m =>
      cases hp : S.isPrefixOf s with
      | true => simp [remFirstAux, hp]
      | false =>
        cases hsp : splitFirstLT s with
        | none => simp [remFirstAux, hp, hsp]
        | some p =>
          obtain ⟨a, b⟩ := p
          obtain ⟨hab, hlen⟩ := splitFirstLT_sound hsp
          simp only [remFirstAux, hp, Bool.false_eq_true, if_false, hsp]
          rw [ih m b (by omega) (by omega)]

theorem remFirst_pref {S s : List Char} (h : S.isPrefixOf s = true) :
    remFirst S s = some (dropLineTerm (s.drop S.length)) := by
  unfold remFirst
  cases hn : s.length <;> simp [remFirstAux, h]

theorem remFirst_step {S s a b : List Char}
    (hp : S.isPrefixOf s = false) (hsp : splitFirstLT s = some (a, b)) :
    remFirst S s = (remFirst S b).map (fun r => a ++ r) := by
  unfold remFirst
  obtain ⟨hab, hlen⟩ := splitFirstLT_sound hsp
  cases hl : s.length with
  | zero =>
    have hs : s = [] := List.length_eq_zero.mp (by omega)
    subst hs
    simp [splitFirstLT] at hsp
  | succ n =>
    simp only [remFirstAux, hp, Bool.false_eq_true, if_false, hsp]
    congr 1
    exact remFirstAux_irrel S n b.length b (by omega) (Nat.le_refl _)

/-- Options of `installHook`. -/
structure InstallOpts where
  dry : Bool
  force : Bool
  stripUseClient : Option Bool

/-- The content `installHook` writes for one file descriptor: fetched text,
optionally stripped of `use client`, alias-rewritten, with the version header
prepended. -/
def installedContent (env : Env) (entry : HookEntry) (meta : HookMeta)
    (cfg : ProjectConfig) (stripClient : Bool) (cwdP : Path)
    (baseDir : List Char) (f : HookFile) : List Char :=
  let dest := destPathOf cwdP baseDir f
  let raw := env.textOf (env.registry.baseUrl ++ '/' :: entry.path ++ '/' :: f.from_)
  let c1 := if stripClient then removeUseClient raw else raw
  let c2 := rewriteAliasImports c1 cfg.aliasPrefix cfg.aliasTarget dest cwdP
  headerLine meta.id (meta.version.getD "0.0.0".data)
    (env.registry.version.getD "0".data) ++ c2

/-- The body of `installHook`'s per-file loop: on a dry run only record the
export name; otherwise back up an existing destination unless forced, then
write the new content. -/
def installFileStep (env : Env) (entry : HookEntry) (meta : HookMeta)
    (cfg : ProjectConfig) (stripClient force dry : Bool) (cwdP : Path)
    (baseDir : List Char) (st : FS × Option (List Char)) (f : HookFile) :
    FS × Option (List Char) :=
  let dest := destPathOf cwdP baseDir f
  if dry then (st.1, some (fileBaseName dest))
  else
    let fs1 :=
      match st.1.lookup dest with
      | some old => if force then st.1 else st.1.write (bakPath dest) old
      | none => st.1
    (fs1.write dest (installedContent env entry meta cfg stripClient cwdP baseDir f),
      some (fileBaseName dest))

/-- The index-maintenance epilogue of `installHook` (append the export line
for the last installed file, idempotently; create the index if absent). -/
def updateIndex (addIndex dry : Bool) (cwdP : Path) (baseDir : List Char)
    (lastExportName : Option (List Char)) (fs : FS) : FS :=
  match lastExportName with
  | none => fs
  | some nm =>
    if addIndex then
      if dry then fs
      else
        let ip := indexPath cwdP baseDir "index.ts".data
        let line := exportLine nm
        match fs.lookup ip with
        | some curr =>
          if containsSub line curr then fs else fs.write ip (curr ++ line)
        | none => fs.write ip line
    else fs

/-- `installHook` (src/cli.ts): registry lookup, per-file install loop, index
maintenance.  The returned `Option` is the thrown error, if any; the world is
returned alongside (unchanged when an error is thrown). -/
def installHook (env : Env) (hookId baseDir : List Char) (addIndex : Bool)
    (opts : InstallOpts) (cwdP : Path) (w : World) :
    Option (List Char) × World :=
  match List.find? (fun h => h.id == hookId) env.registry.hooks with
  | none => (some ("Unknown hook: ".data ++ hookId), w)
  | some entry =>
    let meta := env.metaOf entry.path
    let cfg := w.cfg.getD DEFAULT_CFG
    let stripClient := opts.stripUseClient.getD cfg.stripUseClient
    let st := meta.files.foldl
      (installFileStep env entry meta cfg stripClient opts.force opts.dry cwdP baseDir)
      (w.fs, none)
    (none, ⟨updateIndex addIndex opts.dry cwdP baseDir st.2 st.1, w.cfg⟩)

/-- `parseLocalHookVersion` (src/cli.ts): `{}` for a missing file, otherwise
the decoder over the file content. -/
def parseLocalHookVersion (fs : FS) (p : Path) : Option (List Char × List Char) :=
  match fs.lookup p with
  | none => none
  | some content => parseHeader content

/-- Atoms of the modeled JavaScript regular-expression fragment: a literal
character, or `.` (any character other than a line terminator). -/
inductive RAtom where
  | lit (c : Char)
  | dot
deriving DecidableEq

/-- Pattern items: a mandatory atom, or an atom made optional by a postfix
greedy `?`. -/
inductive RItem where
  | atom (a : RAtom)
  | opt (a : RAtom)
deriving DecidableEq

/-- A `\c` escape of the fragment: `\r`, `\n`, and the identity escape of a
non-alphanumeric character (outside classes, JavaScript reads `\c` as the
literal `c` for such `c`).  Alphanumeric escapes (classes such as `\d` or
`\w`, backreferences, `\u`/`\x` codes, …) are outside the fragment. -/
def escAtom (d : Char) : Option RAtom :=
  if d = 'r' then some (RAtom.lit '\r')
  else if d = 'n' then some (RAtom.lit '\n')
  else if d.isAlphanum then none
  else some (RAtom.lit d)

/-- An unescaped pattern character of the fragment: `.` is the wildcard, and
the remaining regex syntax characters (anchors, quantifiers other than a
postfix `?`, groups, classes, braces, alternation, a stray backslash) are
outside the fragment. -/
def charAtom (c : Char) : Option RAtom :=
  if c = '.' then some RAtom.dot
  else if c = '^' ∨ c = '$' ∨ c = '\\' ∨ c = '*' ∨ c = '+' ∨ c = '?' ∨
      c = '(' ∨ c = ')' ∨ c = '[' ∨ c = ']' ∨ c = '{' ∨ c = '}' ∨ c = '|'
    then none
  else some (RAtom.lit c)

/-- Prepend a parsed atom that turned out not to be followed by `?`. -/
def flushCons : Option RAtom → List RItem → List RItem
  | none, its => its
  | some a, its => RItem.atom a :: its

/-- Parse the pattern after its leading `^` into fragment items; the first
argument holds the previously read atom, still awaiting a possible postfix
`?`.  `none` when the pattern falls outside the fragment (where the real
`RegExp` may throw, or use syntax this model does not interpret). -/
def parseItemsGo : Option RAtom → List Char → Option (List RItem)
  | pending, [] => some (flushCons pending [])
  | pending, c :: rest =>
    if c = '?' then
      match pending with
      | none => none
      | some a => (parseItemsGo none rest).map (fun its => RItem.opt a :: its)
    else if c = '\\' then
      match rest with
      | [] => none
      | d :: rest2 =>
        match escAtom d with
        | none => none
        | some a2 =>
          (parseItemsGo (some a2) rest2).map (fun its => flushCons pending its)
    else
      match charAtom c with
      | none => none
      | some a2 =>
        (parseItemsGo (some a2) rest).map (fun its => flushCons pending its)

/-- The removal pattern `cmdRemove` builds, with the base name interpolated
unescaped: `String.raw` of `^export \* from "\./${base}";\r?\n?`. -/
def removePattern (base : List Char) : List Char :=
  "^export \\* from \"\\./".data ++ base ++ "\";\\r?\\n?".data

/-- Compile the removal pattern: the leading `^` anchor (realized by the
scanner's line-start positions, per the `m` flag), then the parsed items. -/
def compileRemove (base : List Char) : Option (List RItem) :=
  match removePattern base with
  | '^' :: rest => parseItemsGo none rest
  | _ => none

/-- One atom against the head of the input; every fragment atom consumes
exactly one character, and `.` refuses line terminators. -/
def matchAtom : RAtom → List Char → Option (List Char)
  | _, [] => none
  | RAtom.lit c, d :: s => if d = c then some s else none
  | RAtom.dot, d :: s => if isLineTerm d then none else some s

/-- Greedy backtracking match of an item sequence at the start of the input,
returning the unconsumed suffix; an optional atom first tries to consume and
falls back to skipping, as the JavaScript engine does. -/
def matchSeq : List RItem → List Char → Option (List Char)
  | [], s => some s
  | RItem.atom a :: rest, s =>
    match matchAtom a s with
    | none => none
    | some s2 => matchSeq rest s2
  | RItem.opt a :: rest, s =>
    match matchAtom a s with
    | none => matchSeq rest s
    | some s2 =>
      match matchSeq rest s2 with
      | some r => some r
      | none => matchSeq rest s

/-- `String.prototype.replace` of the compiled `^`-anchored pattern under
`/m` (first match only): try the items at the start and after every line
terminator, leftmost first, and drop the matched span.  Fuel as in
`remFirstAux`. -/
def remFirstReAux (items : List RItem) : Nat → List Char → Option (List Char)
  | 0, s => matchSeq items s
  | n + 1, s =>
    match matchSeq items s with
    | some r => some r
    | none =>
      match splitFirstLT s with
      | none => none
      | some (a, b) => (remFirstReAux items n b).map (fun r => a ++ r)

/-- The compiled removal regex applied to a whole content. -/
def remFirstRe (items : List RItem) (s : List Char) : Option (List Char) :=
  remFirstReAux items s.length s

/-- A base name all of whose characters the removal pattern reads as
self-denoting literals (no regex metacharacters, no backslash). -/
def plainBase (base : List Char) : Bool :=
  base.all (fun c => charAtom c = some (RAtom.lit c))

/-- What the removal pattern compiles to for a metacharacter-free base: the
export statement as literals, then the optional `\r` and `\n`
(`compileRemove_plain`). -/
def stdRemoveItems (base : List Char) : List RItem :=
  (exportStmt base).map (fun c => RItem.atom (RAtom.lit c)) ++
    [RItem.opt (RAtom.lit '\r'), RItem.opt (RAtom.lit '\n')]

theorem parseItemsGo_flush (a : RAtom) :
    ∀ s : List Char, s.head? ≠ some '?' →
      parseItemsGo (some a) s =
        (parseItemsGo none s).map (fun its => RItem.atom a :: its) := by
  intro s hs
  cases s with
  | nil => rfl
  | cons c rest =>
    have hc : c ≠ '?' := fun e => hs (by rw [e]; rfl)
    unfold parseItemsGo
    rw [if_neg hc, if_neg hc]
    by_cases hbs : c = '\\'
    · rw [if_pos hbs, if_pos hbs]
      cases rest with
      | nil => rfl
      | cons d r2 =>
        dsimp only
        cases he : escAtom d with
        | none => rfl
        | some a2 =>
          dsimp only
          cases parseItemsGo (some a2) r2 <;> rfl
    · rw [if_neg hbs, if_neg hbs]
      cases hca : charAtom c with
      | none => rfl
      | some a2 =>
        dsimp only
        cases parseItemsGo (some a2) rest <;> rfl

theorem plainBase_cons {c : Char} {bs : List Char}
    (hb : plainBase (c :: bs) = true) :
    charAtom c = some (RAtom.lit c) ∧ plainBase bs = true := by
  unfold plainBase at hb ⊢
  rw [List.all_cons, Bool.and_eq_true] at hb
  exact ⟨of_decide_eq_true hb.1, hb.2⟩

theorem parseItemsGo_plain :
    ∀ (base tail : List Char), plainBase base = true →
      tail.head? ≠ some '?' →
      parseItemsGo none (base ++ tail) =
        (parseItemsGo none tail).map
          (fun its => base.map (fun c => RItem.atom (RAtom.lit c)) ++ its) := by
  intro base
  induction base with
  | nil =>
    intro tail _ _
    simp only [List.nil_append, List.map_nil]
    cases parseItemsGo none tail <;> rfl
  | cons c bs ih =>
    intro tail hb ht
    obtain ⟨hcb, hbs'⟩ := plainBase_cons hb
    have hcq : c ≠ '?' := by
      intro e
      rw [e] at hcb
      simp [charAtom] at hcb
    have hcbs : c ≠ '\\' := by
      intro e
      rw [e] at hcb
      simp [charAtom] at hcb
    have hhead : (bs ++ tail).head? ≠ some '?' := by
      cases bs with
      | nil => simpa using ht
      | cons d bs2 =>
        obtain ⟨hd, _⟩ := plainBase_cons hbs'
        intro e
        simp only [List.cons_append, List.head?_cons, Option.some.injEq] at e
        rw [e] at hd
        simp [charAtom] at hd
    show parseItemsGo none (c :: (bs ++ tail)) = _
    conv_lhs => unfold parseItemsGo
    rw [if_neg hcq, if_neg hcbs, hcb]
    dsimp only
    rw [parseItemsGo_flush (RAtom.lit c) (bs ++ tail) hhead,
      ih tail hbs' ht]
    cases parseItemsGo none tail <;> rfl

theorem compileRemove_plain (base : List Char) (hb : plainBase base = true) :
    compileRemove base = some (stdRemoveItems base) := by
  have hscaf : ∀ rest : List Char, rest.head? ≠ some '?' →
      parseItemsGo none ("export \\* from \"\\./".data ++ rest) =
        (parseItemsGo none rest).map
          (fun its => ("export * from \"./".data).map
            (fun c => RItem.atom (RAtom.lit c)) ++ its) := by
    intro rest hrest
    rw [show "export \\* from \"\\./".data =
      ['e','x','p','o','r','t',' ','\\','*',' ','f','r','o','m',' ','"',
        '\\','.','/'] from rfl]
    simp only [List.cons_append]
    simp [parseItemsGo, escAtom, charAtom]
    rw [show parseItemsGo (some (RAtom.lit '.')) ('/' :: rest) =
      (parseItemsGo (some (RAtom.lit '/')) rest).map
        (fun its => flushCons (some (RAtom.lit '.')) its) from by
      conv_lhs => unfold parseItemsGo
      rw [if_neg (show ¬('/' : Char) = '?' from by decide),
        if_neg (show ¬('/' : Char) = '\\' from by decide),
        show charAtom '/' = some (RAtom.lit '/') from by decide]]
    rw [parseItemsGo_flush (RAtom.lit '/') rest hrest]
    cases parseItemsGo none rest <;> rfl
  have hheadB : ("\";\\r?\\n?".data).head? ≠ some '?' := by decide
  have hbase : (base ++ "\";\\r?\\n?".data).head? ≠ some '?' := by
    cases base with
    | nil => simpa using hheadB
    | cons c bs =>
      obtain ⟨hc, _⟩ := plainBase_cons hb
      intro e
      simp only [List.cons_append, List.head?_cons, Option.some.injEq] at e
      rw [e] at hc
      simp [charAtom] at hc
  show parseItemsGo none
      (("export \\* from \"\\./".data ++ base) ++ "\";\\r?\\n?".data) =
    some (stdRemoveItems base)
  rw [List.append_assoc]
  rw [hscaf (base ++ "\";\\r?\\n?".data) hbase]
  rw [parseItemsGo_plain base ("\";\\r?\\n?".data) hb hheadB]
  rw [show parseItemsGo none ("\";\\r?\\n?".data) =
    some [RItem.atom (RAtom.lit '"'), RItem.atom (RAtom.lit ';'),
      RItem.opt (RAtom.lit '\r'), RItem.opt (RAtom.lit '\n')] from by decide]
  simp [stdRemoveItems, exportStmt, List.map_append]

theorem matchSeq_lits :
    ∀ (S s : List Char) (its : List RItem),
      matchSeq ((S.map (fun c => RItem.atom (RAtom.lit c))) ++ its) s =
        if S.isPrefixOf s then matchSeq its (s.drop S.length) else none := by
  intro S
  induction S with
  | nil => intro s its; simp [List.isPrefixOf]
  | cons c S' ih =>
    intro s its
    cases s with
    | nil =>
      simp only [List.map_cons, List.cons_append, matchSeq, matchAtom]
      rw [if_neg (by simp [List.isPrefixOf])]
    | cons d s' =>
      simp only [List.map_cons, List.cons_append, matchSeq, matchAtom]
      by_cases hdc : d = c
      · subst hdc
        rw [if_pos rfl]
        dsimp only
        simp only [List.append_eq]
        rw [ih s' its]
        have hpre : (d :: S').isPrefixOf (d :: s') = S'.isPrefixOf s' := by
          simp [List.isPrefixOf]
        rw [hpre]
        rfl
      · rw [if_neg hdc]
        have hp : (c :: S').isPrefixOf (d :: s') = false := by
          show ((c == d) && S'.isPrefixOf s') = false
          rw [beq_eq_false_iff_ne.mpr (fun e => hdc (e.symm)), Bool.false_and]
        rw [hp]
        rfl

theorem matchAtom_lit (c d : Char) (t : List Char) :
    matchAtom (RAtom.lit c) (d :: t) = if d = c then some t else none := rfl

theorem matchSeq_cons_opt (a : RAtom) (rest : List RItem) (s : List Char) :
    matchSeq (RItem.opt a :: rest) s =
      match matchAtom a s with
      | none => matchSeq rest s
      | some s2 =>
        match matchSeq rest s2 with
        | some r => some r
        | none => matchSeq rest s := rfl

theorem matchSeq_optn_ne {e : Char} (t : List Char) (hn : e ≠ '\n') :
    matchSeq [RItem.opt (RAtom.lit '\n')] (e :: t) = some (e :: t) := by
  rw [matchSeq_cons_opt, matchAtom_lit, if_neg hn]
  rfl

theorem dropLineTerm_other {d : Char} (t : List Char) (hr : d ≠ '\r')
    (hn : d ≠ '\n') : dropLineTerm (d :: t) = d :: t := by
  unfold dropLineTerm
  split
  · rename_i heq
    rw [List.cons.injEq] at heq
    exact absurd heq.1 hr
  · rename_i heq
    rw [List.cons.injEq] at heq
    exact absurd heq.1 hr
  · rename_i heq
    rw [List.cons.injEq] at heq
    exact absurd heq.1 hn
  · rfl

theorem dropLineTerm_cr {e : Char} (t : List Char) (hn : e ≠ '\n') :
    dropLineTerm ('\r' :: e :: t) = e :: t := by
  unfold dropLineTerm
  split
  · rename_i heq
    rw [List.cons.injEq, List.cons.injEq] at heq
    exact absurd heq.2.1 hn
  · rename_i heq
    rw [List.cons.injEq] at heq
    exact heq.2.symm
  · rename_i heq
    rw [List.cons.injEq] at heq
    exact absurd heq.1 (by decide)
  · rename_i h1 h2 h3
    exact absurd rfl (h2 (e :: t))

theorem matchSeq_opts (s : List Char) :
    matchSeq [RItem.opt (RAtom.lit '\r'), RItem.opt (RAtom.lit '\n')] s =
      some (dropLineTerm s) := by
  cases s with
  | nil => rfl
  | cons d t =>
    by_cases hr : d = '\r'
    · subst hr
      cases t with
      | nil => rfl
      | cons e t2 =>
        by_cases hn : e = '\n'
        · subst hn; rfl
        · rw [matchSeq_cons_opt,
            show matchAtom (RAtom.lit '\r') ('\r' :: e :: t2) =
              some (e :: t2) from rfl]
          dsimp only
          rw [matchSeq_optn_ne t2 hn]
          dsimp only
          rw [dropLineTerm_cr t2 hn]
    · by_cases hn : d = '\n'
      · subst hn; rfl
      · rw [matchSeq_cons_opt, matchAtom_lit, if_neg hr,
          matchSeq_optn_ne t hn, dropLineTerm_other t hr hn]

theorem matchSeq_std (base s : List Char) :
    matchSeq (stdRemoveItems base) s =
      if (exportStmt base).isPrefixOf s
      then some (dropLineTerm (s.drop (exportStmt base).length)) else none := by
  unfold stdRemoveItems
  rw [matchSeq_lits]
  by_cases h : (exportStmt base).isPrefixOf s = true
  · rw [if_pos h, if_pos h, matchSeq_opts]
  · rw [if_neg h, if_neg h]

theorem remFirstReAux_std (base : List Char) :
    ∀ (n : Nat) (s : List Char),
      remFirstReAux (stdRemoveItems base) n s =
        remFirstAux (exportStmt base) n s := by
  intro n
  induction n with
  | zero =>
    intro s
    show matchSeq (stdRemoveItems base) s = _
    rw [matchSeq_std]
    rfl
  | succ n ih =>
    intro s
    unfold remFirstReAux remFirstAux
    rw [matchSeq_std]
    by_cases h : (exportStmt base).isPrefixOf s = true
    · rw [if_pos h, if_pos h]
    · rw [if_neg h, if_neg h]
      cases hsp : splitFirstLT s with
      | none => rfl
      | some p =>
        obtain ⟨a, b⟩ := p
        dsimp only
        rw [ih]

theorem remFirstRe_std (base s : List Char) :
    remFirstRe (stdRemoveItems base) s = remFirst (exportStmt base) s :=
  remFirstReAux_std base s.length s

/-- One index file's pruning inside `cmdRemove`'s loop: read the index if
present, compile the removal regex from the unescaped interpolated base name,
and delete its first match.  A base that takes the pattern outside the
modeled fragment is not interpreted (`compileRemove` refuses and the index is
left as is); every theorem about the reconciler restricts the base to the
fragment. -/
def removeIndexStep (cwdP : Path) (baseDir base : List Char) (fs : FS)
    (idxName : List Char) : FS :=
  let ip := indexPath cwdP baseDir idxName
  match fs.lookup ip with
  | none => fs
  | some curr =>
    match compileRemove base with
    | none => fs
    | some items =>
      match remFirstRe items curr with
      | some next => fs.write ip next
      | none => fs

/-- The body of `cmdRemove`'s per-file loop: unlink the destination if
present, then prune the matching line from both index files. -/
def removeFileStep (cwdP : Path) (baseDir : List Char) (fs : FS)
    (f : HookFile) : FS :=
  let dest := destPathOf cwdP baseDir f
  let base := fileBaseName dest
  let fs1 := if (fs.lookup dest).isSome then fs.erase dest else fs
  removeIndexStep cwdP baseDir base
    (removeIndexStep cwdP baseDir base fs1 "index.ts".data) "index.js".data

/-- `cmdRemove` (src/cli.ts). -/
def cmdRemove (env : Env) (hookId : List Char) (optBaseDir : Option (List Char))
    (cwdP : Path) (w : World) : Option (List Char) × World :=
  let baseDir := optBaseDir.getD ((w.cfg.map (fun c => c.baseDir)).getD "src/hooks".data)
  match List.find? (fun h => h.id == hookId) env.registry.hooks with
  | none => (some ("Unknown hook: ".data ++ hookId), w)
  | some entry =>
    let meta := env.metaOf entry.path
    (none, ⟨meta.files.foldl (removeFileStep cwdP baseDir) w.fs, w.cfg⟩)

/-- `cmdUpdate` (src/cli.ts): resolve defaults and delegate to `installHook`
with `dry`/`force` passed through. -/
def cmdUpdate (env : Env) (hookId : List Char) (optBaseDir : Option (List Char))
    (optAddIndex : Option Bool) (dry force : Bool) (cwdP : Path) (w : World) :
    Option (List Char) × World :=
  let baseDir := optBaseDir.getD ((w.cfg.map (fun c => c.baseDir)).getD "src/hooks".data)
  let addIndex := optAddIndex.getD ((w.cfg.map (fun c => c.addIndex)).getD true)
  installHook env hookId baseDir addIndex
    ⟨dry, force, some ((w.cfg.map (fun c => c.stripUseClient)).getD false)⟩ cwdP w

/-- The last path component. -/
def lastCompOf (p : Path) : Comp := (p.getLast?).getD []

/-- The recursive `walk` of a directory, modelled as the filesystem's keys
strictly below it (in enumeration order, standing in for `readdir` order). -/
def walkFiles (fs : FS) (dir : Path) : List Path :=
  (fs.map (fun e => e.1)).filter
    (fun p => dir.isPrefixOf p && decide (dir.length < p.length))

/-- `p.endsWith(".ts") || p.endsWith(".js")`. -/
def recognizedExt (p : Path) : Bool :=
  ".ts".data.isSuffixOf (lastCompOf p) || ".js".data.isSuffixOf (lastCompOf p)

/-- One pass of `cmdMigrate`'s copy loop:
`copyFile(full, cwd(newBaseDir, path.basename(full)))`. -/
def migCopyStep (cwdP : Path) (newBaseDir : List Char) (acc : FS) (p : Path) :
    FS :=
  match acc.lookup p with
  | some c => acc.write (cwd2 cwdP newBaseDir (lastCompOf p)) c
  | none => acc

/-- `cmdMigrate` (src/cli.ts): no-op error for a blank path; no-op when the
new root resolves to the current one; otherwise flat-copy every recognized
file of the old root under the new root by base name and persist the updated
configuration. -/
def cmdMigrate (newBaseDir : List Char) (cwdP : Path) (w : World) :
    Option (List Char) × World :=
  if newBaseDir.all isWsJS then
    (some "Usage: wkkkis-hooks migrate --path=<newDir>".data, w)
  else
    let cfg := w.cfg.getD DEFAULT_CFG
    let oldBase := cfg.baseDir
    if jsResolve cwdP oldBase = jsResolve cwdP newBaseDir then (none, w)
    else
      let files := (walkFiles w.fs (jsResolve cwdP oldBase)).filter recognizedExt
      let fs1 := files.foldl (migCopyStep cwdP newBaseDir) w.fs
      (none, ⟨fs1, some ⟨newBaseDir, cfg.addIndex, cfg.stripUseClient,
        cfg.aliasPrefix, cfg.aliasTarget⟩⟩)

theorem takeWhile_all_append (p : Char → Bool) (l : List Char) (b : Char)
    (r : List Char) (hl : ∀ c ∈ l, p c = true) (hb : p b = false) :
    (l ++ b :: r).takeWhile p = l ∧ (l ++ b :: r).dropWhile p = b :: r := by
  induction l with
  | nil => simp [List.takeWhile, List.dropWhile, hb]
  | cons a l' ih =>
    have ha : p a = true := hl a (by simp)
    obtain ⟨ih1, ih2⟩ := ih (fun c hc => hl c (List.mem_cons_of_mem _ hc))
    simp [List.takeWhile_cons, List.dropWhile_cons, ha, ih1, ih2]

theorem take_append_of_le {α : Type _} {n : Nat} (xs ys : List α)
    (h : xs.length ≤ n) : (xs ++ ys).take n = xs ++ ys.take (n - xs.length) := by
  induction xs generalizing n with
  | nil => simp
  | cons a l ih =>
    cases n with
    | zero => simp at h
    | succ n =>
      simp only [List.cons_append, List.take_succ_cons, List.length_cons]
      rw [ih (Nat.le_of_succ_le_succ (by simpa using h))]
      have harith : n + 1 - (l.length + 1) = n - l.length := by omega
      rw [harith]

theorem headerPre_data :
    "/* Installed via wkkkis-hooks | hook:".data = ['/', '*', ' ', 'I', 'n', 's', 't', 'a', 'l', 'l', 'e', 'd', ' ', 'v', 'i', 'a', ' ', 'w', 'k', 'k', 'k', 'i', 's', '-', 'h', 'o', 'o', 'k', 's', ' ', '|', ' ', 'h', 'o', 'o', 'k', ':'] := rfl

theorem matchHookAt_no_tag (c1 c2 c3 c4 c5 : Char) (s : List Char)
    (h : hookTag c1 c2 c3 c4 c5 = false) :
    matchHookAt (c1 :: c2 :: c3 :: c4 :: c5 :: s) = none := by
  simp [matchHookAt, h]

theorem findHook_step (c : Char) (s : List Char)
    (h : matchHookAt (c :: s) = none) : findHook (c :: s) = findHook s := by
  rw [findHook, h]

/-- The first regex match inside an installed header is at its `hook:` tag:
every earlier window of the concrete prefix fails the tag check. -/
theorem findHook_header {t : List Char} {r : List Char × List Char}
    (hm : matchHookAt ('h' :: 'o' :: 'o' :: 'k' :: ':' :: t) = some r) :
    findHook ("/* Installed via wkkkis-hooks | hook:".data ++ t) = some r := by
  rw [headerPre_data]
  simp only [List.cons_append, List.nil_append]
  rw [findHook_step '/' _ (matchHookAt_no_tag '/' '*' ' ' 'I' 'n' _ (by decide))]
  rw [findHook_step '*' _ (matchHookAt_no_tag '*' ' ' 'I' 'n' 's' _ (by decide))]
  rw [findHook_step ' ' _ (matchHookAt_no_tag ' ' 'I' 'n' 's' 't' _ (by decide))]
  rw [findHook_step 'I' _ (matchHookAt_no_tag 'I' 'n' 's' 't' 'a' _ (by decide))]
  rw [findHook_step 'n' _ (matchHookAt_no_tag 'n' 's' 't' 'a' 'l' _ (by decide))]
  rw [findHook_step 's' _ (matchHookAt_no_tag 's' 't' 'a' 'l' 'l' _ (by decide))]
  rw [findHook_step 't' _ (matchHookAt_no_tag 't' 'a' 'l' 'l' 'e' _ (by decide))]
  rw [findHook_step 'a' _ (matchHookAt_no_tag 'a' 'l' 'l' 'e' 'd' _ (by decide))]
  rw [findHook_step 'l' _ (matchHookAt_no_tag 'l' 'l' 'e' 'd' ' ' _ (by decide))]
  rw [findHook_step 'l' _ (matchHookAt_no_tag 'l' 'e' 'd' ' ' 'v' _ (by decide))]
  rw [findHook_step 'e' _ (matchHookAt_no_tag 'e' 'd' ' ' 'v' 'i' _ (by decide))]
  rw [findHook_step 'd' _ (matchHookAt_no_tag 'd' ' ' 'v' 'i' 'a' _ (by decide))]
  rw [findHook_step ' ' _ (matchHookAt_no_tag ' ' 'v' 'i' 'a' ' ' _ (by decide))]
  rw [findHook_step 'v' _ (matchHookAt_no_tag 'v' 'i' 'a' ' ' 'w' _ (by decide))]
  rw [findHook_step 'i' _ (matchHookAt_no_tag 'i' 'a' ' ' 'w' 'k' _ (by decide))]
  rw [findHook_step 'a' _ (matchHookAt_no_tag 'a' ' ' 'w' 'k' 'k' _ (by decide))]
  rw [findHook_step ' ' _ (matchHookAt_no_tag ' ' 'w' 'k' 'k' 'k' _ (by decide))]
  rw [findHook_step 'w' _ (matchHookAt_no_tag 'w' 'k' 'k' 'k' 'i' _ (by decide))]
  rw [findHook_step 'k' _ (matchHookAt_no_tag 'k' 'k' 'k' 'i' 's' _ (by decide))]
  rw [findHook_step 'k' _ (matchHookAt_no_tag 'k' 'k' 'i' 's' '-' _ (by decide))]
  rw [findHook_step 'k' _ (matchHookAt_no_tag 'k' 'i' 's' '-' 'h' _ (by decide))]
  rw [findHook_step 'i' _ (matchHookAt_no_tag 'i' 's' '-' 'h' 'o' _ (by decide))]
  rw [findHook_step 's' _ (matchHookAt_no_tag 's' '-' 'h' 'o' 'o' _ (by decide))]
  rw [findHook_step '-' _ (matchHookAt_no_tag '-' 'h' 'o' 'o' 'k' _ (by decide))]
  rw [findHook_step 'h' _ (matchHookAt_no_tag 'h' 'o' 'o' 'k' 's' _ (by decide))]
  rw [findHook_step 'o' _ (matchHookAt_no_tag 'o' 'o' 'k' 's' ' ' _ (by decide))]
  rw [findHook_step 'o' _ (matchHookAt_no_tag 'o' 'k' 's' ' ' '|' _ (by decide))]
  rw [findHook_step 'k' _ (matchHookAt_no_tag 'k' 's' ' ' '|' ' ' _ (by decide))]
  rw [findHook_step 's' _ (matchHookAt_no_tag 's' ' ' '|' ' ' 'h' _ (by decide))]
  rw [findHook_step ' ' _ (matchHookAt_no_tag ' ' '|' ' ' 'h' 'o' _ (by decide))]
  rw [findHook_step '|' _ (matchHookAt_no_tag '|' ' ' 'h' 'o' 'o' _ (by decide))]
  rw [findHook_step ' ' _ (matchHookAt_no_tag ' ' 'h' 'o' 'o' 'k' _ (by decide))]
  rw [findHook, hm]

theorem matchVer3_eq (d1 d2 d3 rest : List Char)
    (hd1 : d1 ≠ []) (hd1c : ∀ c ∈ d1, c.isDigit = true)
    (hd2 : d2 ≠ []) (hd2c : ∀ c ∈ d2, c.isDigit = true)
    (hd3 : d3 ≠ []) (hd3c : ∀ c ∈ d3, c.isDigit = true) :
    matchVer3 (d1 ++ '.' :: (d2 ++ '.' :: (d3 ++ ' ' :: rest))) =
      some (d1 ++ '.' :: d2 ++ '.' :: d3) := by
  obtain ⟨ht2, hD2⟩ := takeWhile_all_append Char.isDigit d1 '.'
    (d2 ++ '.' :: (d3 ++ ' ' :: rest)) hd1c (by decide)
  obtain ⟨ht3, hD3⟩ := takeWhile_all_append Char.isDigit d2 '.'
    (d3 ++ ' ' :: rest) hd2c (by decide)
  obtain ⟨ht4, hD4⟩ := takeWhile_all_append Char.isDigit d3 ' '
    rest hd3c (by decide)
  simp only [matchVer3, ht2, hD2, ht3, hD3, ht4, hD4, if_neg hd1, if_neg hd2,
    if_neg hd3]

theorem matchHookAt_header (id d1 d2 d3 rest : List Char)
    (hid : id ≠ []) (hidc : ∀ c ∈ id, isIdChar c = true)
    (hd1 : d1 ≠ []) (hd1c : ∀ c ∈ d1, c.isDigit = true)
    (hd2 : d2 ≠ []) (hd2c : ∀ c ∈ d2, c.isDigit = true)
    (hd3 : d3 ≠ []) (hd3c : ∀ c ∈ d3, c.isDigit = true) :
    matchHookAt ('h' :: 'o' :: 'o' :: 'k' :: ':' ::
        (id ++ '@' :: (d1 ++ '.' :: (d2 ++ '.' :: (d3 ++ ' ' :: rest))))) =
      some (id, d1 ++ '.' :: d2 ++ '.' :: d3) := by
  obtain ⟨ht1, hD1⟩ := takeWhile_all_append isIdChar id '@'
    (d1 ++ '.' :: (d2 ++ '.' :: (d3 ++ ' ' :: rest))) hidc (by decide)
  simp only [matchHookAt, show hookTag 'h' 'o' 'o' 'k' ':' = true from rfl,
    if_true, ht1, hD1, if_neg hid,
    matchVer3_eq d1 d2 d3 rest hd1 hd1c hd2 hd2c hd3 hd3c, Option.map_some']

theorem findHook_none {s : List Char}
    (h : ∀ t ∈ s.tails, matchHookAt t = none) : findHook s = none := by
  induction s with
  | nil => rfl
  | cons c rest ih =>
    have h0 : matchHookAt (c :: rest) = none :=
      h _ ((List.mem_tails _ _).mpr (List.suffix_refl _))
    rw [findHook, h0]
    exact ih (fun t ht => h t ((List.mem_tails _ _).mpr
      (((List.mem_tails _ _).mp ht).trans (List.suffix_cons c rest))))

theorem find_filter_ne {p q : Path} (h : q ≠ p) (fs : FS) :
    List.find? (fun e => e.1 == q) (List.filter (fun e => !(e.1 == p)) fs) =
      List.find? (fun e => e.1 == q) fs := by
  induction fs with
  | nil => rfl
  | cons e rest ih =>
    by_cases hep : e.1 = p
    · have h1 : (e.1 == p) = true := beq_iff_eq.mpr hep
      have h2 : (e.1 == q) = false := by
        rw [beq_eq_false_iff_ne]
        intro he
        exact h (he ▸ hep)
      simp [List.filter_cons, h1, List.find?_cons, h2, ih]
    · have h1 : (e.1 == p) = false := beq_eq_false_iff_ne.mpr hep
      by_cases heq : e.1 = q
      · have h2 : (e.1 == q) = true := beq_iff_eq.mpr heq
        simp [List.filter_cons, h1, List.find?_cons, h2]
      · have h2 : (e.1 == q) = false := beq_eq_false_iff_ne.mpr heq
        simp [List.filter_cons, h1, List.find?_cons, h2, ih]

theorem FS.lookup_write_self (fs : FS) (p : Path) (c : List Char) :
    (fs.write p c).lookup p = some c := by
  simp [FS.lookup, FS.write, List.find?_cons]

theorem FS.lookup_write_ne (fs : FS) {p q : Path} (c : List Char) (h : q ≠ p) :
    (fs.write p c).lookup q = fs.lookup q := by
  have h2 : (p == q) = false := beq_eq_false_iff_ne.mpr (fun e => h e.symm)
  simp [FS.lookup, FS.write, List.find?_cons, h2, find_filter_ne h]

theorem FS.lookup_erase_self (fs : FS) (p : Path) :
    (fs.erase p).lookup p = none := by
  unfold FS.lookup FS.erase
  induction fs with
  | nil => rfl
  | cons e rest ih =>
    by_cases hep : e.1 = p
    · have h1 : (e.1 == p) = true := beq_iff_eq.mpr hep
      simpa [List.filter_cons, h1] using ih
    · have h1 : (e.1 == p) = false := beq_eq_false_iff_ne.mpr hep
      simpa [List.filter_cons, h1, List.find?_cons] using ih

theorem FS.lookup_erase_ne (fs : FS) {p q : Path} (h : q ≠ p) :
    (fs.erase p).lookup q = fs.lookup q := by
  unfold FS.lookup FS.erase
  rw [find_filter_ne h]

theorem findHook_header_full (id d1 d2 d3 K : List Char)
    (hid : id ≠ []) (hidc : ∀ c ∈ id, isIdChar c = true)
    (hd1 : d1 ≠ []) (hd1c : ∀ c ∈ d1, c.isDigit = true)
    (hd2 : d2 ≠ []) (hd2c : ∀ c ∈ d2, c.isDigit = true)
    (hd3 : d3 ≠ []) (hd3c : ∀ c ∈ d3, c.isDigit = true) :
    findHook ("/* Installed via wkkkis-hooks | hook:".data ++
        (id ++ '@' :: ((d1 ++ '.' :: d2 ++ '.' :: d3) ++ [' '])) ++ K) =
      some (id, d1 ++ '.' :: d2 ++ '.' :: d3) := by
  have hassoc : "/* Installed via wkkkis-hooks | hook:".data ++
      (id ++ '@' :: ((d1 ++ '.' :: d2 ++ '.' :: d3) ++ [' '])) ++ K =
      "/* Installed via wkkkis-hooks | hook:".data ++
        (id ++ '@' :: (d1 ++ '.' :: (d2 ++ '.' :: (d3 ++ ' ' :: K)))) := by
    simp [List.append_assoc]
  rw [hassoc]
  exact findHook_header (matchHookAt_header id d1 d2 d3 K hid hidc hd1 hd1c
    hd2 hd2c hd3 hd3c)

/-- C2: round-trip of the version-header codec — decoding a file whose
content is the encoded header line (for a hook id over the header's
`[a-z0-9-]` alphabet, a `MAJOR.MINOR.PATCH` version of digit runs, and a
header whose match fits the 2048-byte decode window) followed by arbitrary
content returns exactly the id and version; and decoding any content in
which no position matches the header pattern returns the absent result,
without any exception (the decoder is a total function). -/
theorem c2_header_codec (id d1 d2 d3 rv content : List Char)
    (hid : id ≠ []) (hidc : ∀ c ∈ id, isIdChar c = true)
    (hd1 : d1 ≠ []) (hd1c : ∀ c ∈ d1, c.isDigit = true)
    (hd2 : d2 ≠ []) (hd2c : ∀ c ∈ d2, c.isDigit = true)
    (hd3 : d3 ≠ []) (hd3c : ∀ c ∈ d3, c.isDigit = true)
    (hlen : 39 + id.length + (d1 ++ '.' :: d2 ++ '.' :: d3).length ≤ 2048) :
    parseHeader (headerLine id (d1 ++ '.' :: d2 ++ '.' :: d3) rv ++ content) =
      some (id, d1 ++ '.' :: d2 ++ '.' :: d3) ∧
    ∀ c' : List Char, (∀ s ∈ (c'.take 2048).tails, matchHookAt s = none) →
      parseHeader c' = none := by
  constructor
  · unfold parseHeader
    have hsplit : headerLine id (d1 ++ '.' :: d2 ++ '.' :: d3) rv ++ content =
        ("/* Installed via wkkkis-hooks | hook:".data ++
          (id ++ '@' :: ((d1 ++ '.' :: d2 ++ '.' :: d3) ++ [' ']))) ++
          ("| registry:".data ++ rv ++ " */\n".data ++ content) := by
      unfold headerLine
      rw [show " | registry:".data = ' ' :: "| registry:".data from rfl]
      simp [List.append_assoc]
    rw [hsplit, take_append_of_le _ _ (by
      rw [headerPre_data]
      simp only [List.length_append, List.length_cons, List.length_nil] at hlen ⊢
      omega)]
    exact findHook_header_full id d1 d2 d3 _ hid hidc hd1 hd1c hd2 hd2c hd3 hd3c
  · intro c' h
    unfold parseHeader
    exact findHook_none h

/-- Witness for `c2_header_codec` at a concrete header. -/
theorem c2_header_codec_witness :
    parseHeader (headerLine "use-x".data "1.2.0".data "3".data ++ "body".data) =
      some ("use-x".data, "1.2.0".data) :=
  (c2_header_codec "use-x".data "1".data "2".data "0".data "3".data "body".data
    (by decide) (by decide) (by decide) (by decide) (by decide) (by decide)
    (by decide) (by decide) (by decide)).1

/-- Lexicographic strict order on three semver components. -/
def semverLt (a1 a2 a3 b1 b2 b3 : Int) : Prop :=
  a1 < b1 ∨ (a1 = b1 ∧ (a2 < b2 ∨ (a2 = b2 ∧ a3 < b3)))

instance (a1 a2 a3 b1 b2 b3 : Int) : Decidable (semverLt a1 a2 a3 b1 b2 b3) := by
  unfold semverLt; infer_instance

/-- C9: `cmpSemver` compares version strings by component-wise numeric
comparison of major, then minor, then patch, returning a positive, zero or
negative number accordingly; including the three concrete examples. -/
theorem c9_cmpSemver (a b : List Char) (a1 a2 a3 b1 b2 b3 : Int)
    (ha : versionParts a = [some a1, some a2, some a3])
    (hb : versionParts b = [some b1, some b2, some b3]) :
    (cmpSemver a b > 0 ↔ semverLt b1 b2 b3 a1 a2 a3) ∧
    (cmpSemver a b = 0 ↔ (a1 = b1 ∧ a2 = b2 ∧ a3 = b3)) ∧
    (cmpSemver a b < 0 ↔ semverLt a1 a2 a3 b1 b2 b3) ∧
    cmpSemver "1.2.0".data "1.1.9".data > 0 ∧
    cmpSemver "1.0.0".data "1.0.0".data = 0 ∧
    cmpSemver "0.9.0".data "1.0.0".data < 0 := by
  refine ⟨?_, ?_, ?_, by decide, by decide, by decide⟩ <;>
  · simp only [cmpSemver, ha, hb, List.getElem?_cons_zero,
      List.getElem?_cons_succ, orZero, semverLt]
    split_ifs <;> omega

/-- Witness for `c9_cmpSemver`. -/
theorem c9_cmpSemver_witness : cmpSemver "1.2.0".data "1.1.9".data > 0 :=
  ((c9_cmpSemver "1.2.0".data "1.1.9".data 1 2 0 1 1 9 (by decide)
    (by decide)).1).mpr (by decide)

theorem installFold_dry (env : Env) (entry : HookEntry) (meta : HookMeta)
    (cfg : ProjectConfig) (sc force : Bool) (cwdP : Path) (baseDir : List Char) :
    ∀ (files : List HookFile) (st : FS × Option (List Char)),
      (files.foldl (installFileStep env entry meta cfg sc force true cwdP baseDir)
        st).1 = st.1 := by
  intro files
  induction files with
  | nil => intro st; rfl
  | cons f fs ih =>
    intro st
    rw [List.foldl_cons, ih]
    rfl

theorem updateIndex_dry (addIndex : Bool) (cwdP : Path) (baseDir : List Char)
    (le : Option (List Char)) (fs : FS) :
    updateIndex addIndex true cwdP baseDir le fs = fs := by
  unfold updateIndex
  cases le with
  | none => rfl
  | some nm => cases addIndex <;> rfl

/-- C10: a dry-run `installHook` performs no filesystem write at all — no
destination file, no backup, no index creation or update; the world is
returned unchanged (also in the unknown-hook error case). -/
theorem c10_dry_run (env : Env) (hookId baseDir : List Char) (addIndex : Bool)
    (force : Bool) (strip : Option Bool) (cwdP : Path) (w : World) :
    (installHook env hookId baseDir addIndex ⟨true, force, strip⟩ cwdP w).2 = w := by
  obtain ⟨fs, cfg⟩ := w
  unfold installHook
  cases hf : List.find? (fun h => h.id == hookId) env.registry.hooks with
  | none => rfl
  | some entry =>
    simp only [updateIndex_dry, installFold_dry]

/-- C6: for a hook id absent from the fetched registry snapshot, install,
update and remove all raise the `Unknown hook` error with the world left
unchanged (the lookup precedes all file I/O). -/
theorem c6_unknown_hook (env : Env) (hookId : List Char)
    (h : ∀ e ∈ env.registry.hooks, e.id ≠ hookId)
    (baseDir : List Char) (addIndex : Bool) (opts : InstallOpts)
    (optBaseDir : Option (List Char)) (optAddIndex : Option Bool)
    (dry force : Bool) (cwdP : Path) (w : World) :
    installHook env hookId baseDir addIndex opts cwdP w =
      (some ("Unknown hook: ".data ++ hookId), w) ∧
    cmdUpdate env hookId optBaseDir optAddIndex dry force cwdP w =
      (some ("Unknown hook: ".data ++ hookId), w) ∧
    cmdRemove env hookId optBaseDir cwdP w =
      (some ("Unknown hook: ".data ++ hookId), w) := by
  have hf : List.find? (fun e => e.id == hookId) env.registry.hooks = none := by
    rw [List.find?_eq_none]
    intro e he
    simp [h e he]
  refine ⟨?_, ?_, ?_⟩ <;> simp [installHook, cmdUpdate, cmdRemove, hf]

/-- Witness for `c6_unknown_hook`. -/
theorem c6_unknown_hook_witness :
    installHook
      ⟨⟨"http://r".data, [⟨"use-x".data, "hooks/use-x".data⟩], none⟩,
        fun _ => ⟨[], [], none, []⟩, fun _ => []⟩
      "nope".data "src/hooks".data true ⟨false, false, none⟩ ["proj".data]
      ⟨[], none⟩ =
      (some ("Unknown hook: ".data ++ "nope".data), ⟨[], none⟩) :=
  (c6_unknown_hook _ "nope".data (by decide) "src/hooks".data true
    ⟨false, false, none⟩ none none false false ["proj".data] ⟨[], none⟩).1

/-- C8: `rewriteAliasImports` is the identity whenever the alias prefix or
target is absent, and whenever no suffix of the code matches any of the four
anchored import shapes with the configured prefix — in particular unrelated
and already-relative imports are copied verbatim. -/
theorem c8_pass_through :
    (∀ (code : List Char) (tg : Option (List Char)) (dest root : Path),
      rewriteAliasImports code none tg dest root = code) ∧
    (∀ (code ap : List Char) (dest root : Path),
      rewriteAliasImports code (some ap) none dest root = code) ∧
    (∀ (code ap tg : List Char) (dest root : Path),
      (∀ s ∈ code.tails, tryMatch (normPre ap) s = none) →
      rewriteAliasImports code (some ap) (some tg) dest root = code) := by
  refine ⟨fun code tg dest root => ?_, fun code ap dest root => ?_,
    fun code ap tg dest root h => ?_⟩
  · cases tg <;> rfl
  · rfl
  · show (if (ap.isEmpty || tg.isEmpty) = true then code
        else scanRewrite (normPre ap) (jsResolve root tg) dest.dropLast code) =
      code
    by_cases he : (ap.isEmpty || tg.isEmpty) = true
    · rw [if_pos he]
    · rw [if_neg he]
      exact scanRewrite_id h

/-- Witness for `c8_pass_through`: a code fragment with an already-relative
and an unrelated bare import is returned byte-for-byte unchanged. -/
theorem c8_pass_through_witness :
    rewriteAliasImports "import x from './rel'; import y from 'other';".data
      (some "@/".data) (some "src".data) ["proj".data, "a.ts".data]
      ["proj".data] =
      "import x from './rel'; import y from 'other';".data :=
  c8_pass_through.2.2 "import x from './rel'; import y from 'other';".data
    "@/".data "src".data ["proj".data, "a.ts".data] ["proj".data] (by decide)

/-- C1: for every alias rule and every import matched by one of the four
shapes, the rewriter (a) replaces exactly the matched span, emitting the
captured left and right groups unchanged around the computed specifier, and
(b) produces a relative specifier that, resolved from the destination file's
own directory, reaches the same absolute path as the subpath resolved
against the alias target under the project root (`./`-prefixed when not
already starting with a dot, by definition of `rewriteTarget`).  Paths are
constrained to normalized, separator-free components, matching the
forward-slash conversion the code performs. -/
theorem c1_alias_rewrite (ap tg : List Char) (destAbsFile projectRootAbs : Path)
    (hap : ap ≠ []) (htg : tg ≠ [])
    (hroot : cleanPath projectRootAbs) (htgbs : '\\' ∉ tg) :
    (∀ code : List Char,
      rewriteAliasImports code (some ap) (some tg) destAbsFile projectRootAbs =
        scanRewrite (normPre ap) (jsResolve projectRootAbs tg)
          destAbsFile.dropLast code) ∧
    (∀ (c : Char) (rest l x r rest' : List Char),
      tryMatch (normPre ap) (c :: rest) = some (l, x, r, rest') →
      scanRewrite (normPre ap) (jsResolve projectRootAbs tg)
          destAbsFile.dropLast (c :: rest) =
        l ++ rewriteTarget (jsResolve projectRootAbs tg) destAbsFile.dropLast x
          ++ r ++ scanRewrite (normPre ap) (jsResolve projectRootAbs tg)
            destAbsFile.dropLast rest') ∧
    (∀ x : List Char, '\\' ∉ x →
      jsResolve destAbsFile.dropLast
          (rewriteTarget (jsResolve projectRootAbs tg) destAbsFile.dropLast x) =
        jsResolve (jsResolve projectRootAbs tg) x) := by
  refine ⟨fun code => ?_, fun c rest l x r rest' h => ?_, fun x hx => ?_⟩
  · show (if (ap.isEmpty || tg.isEmpty) = true then code
        else scanRewrite (normPre ap) (jsResolve projectRootAbs tg)
          destAbsFile.dropLast code) = _
    rw [if_neg (by simp [Bool.or_eq_true, List.isEmpty_iff, hap, htg])]
  · exact scanRewrite_cons_match h
  · exact rewriteTarget_resolve (jsResolve_clean hroot htgbs) hx

/-- Witness for `c1_alias_rewrite`: a concrete rewrite of
`from "@/lib/a"` in a file at `/proj/src/hooks/use-x.ts` resolves back to
`/proj/src/lib/a`. -/
theorem c1_alias_rewrite_witness :
    jsResolve (["proj".data, "src".data, "hooks".data, "use-x.ts".data] :
        Path).dropLast
      (rewriteTarget (jsResolve ["proj".data] "src".data)
        (["proj".data, "src".data, "hooks".data, "use-x.ts".data] :
          Path).dropLast "lib/a".data) =
      jsResolve (jsResolve ["proj".data] "src".data) "lib/a".data :=
  (c1_alias_rewrite "@/".data "src".data
    ["proj".data, "src".data, "hooks".data, "use-x.ts".data] ["proj".data]
    (by decide) (by decide) (by decide) (by decide)).2.2 "lib/a".data
    (by decide)

theorem bakPath_ne (p : Path) : bakPath p ≠ p := by
  intro h
  have h1 : (bakPath p).getLast? = some (((p.getLast?).getD []) ++ ".bak".data) := by
    unfold bakPath
    exact List.getLast?_concat _
  rw [h] at h1
  cases hp : p.getLast? with
  | none => rw [hp] at h1; cases h1
  | some c =>
    rw [hp] at h1
    simp only [Option.getD_some, Option.some.injEq] at h1
    have hlen := congrArg List.length h1
    simp [List.length_append] at hlen

theorem updateIndex_lookup_ne (addIndex dry : Bool) (cwdP : Path)
    (baseDir : List Char) (le : Option (List Char)) (fs : FS) (q : Path)
    (hq : q ≠ indexPath cwdP baseDir "index.ts".data) :
    (updateIndex addIndex dry cwdP baseDir le fs).lookup q = fs.lookup q := by
  unfold updateIndex
  cases le with
  | none => rfl
  | some nm =>
    cases addIndex with
    | false => rfl
    | true =>
      cases dry with
      | true => rfl
      | false =>
        simp only []
        cases hc : fs.lookup (indexPath cwdP baseDir "index.ts".data) with
        | none => simp [hc, FS.lookup_write_ne _ _ hq]
        | some curr =>
          by_cases hcs : containsSub (exportLine nm) curr = true
          · simp [hc, hcs]
          · simp [hc, hcs, FS.lookup_write_ne _ _ hq]

theorem installFileStep_exists_noforce (env : Env) (entry : HookEntry)
    (meta : HookMeta) (cfg : ProjectConfig) (sc : Bool) (cwdP : Path)
    (baseDir : List Char) (fs : FS) (le : Option (List Char)) (f : HookFile)
    (old : List Char) (hold : fs.lookup (destPathOf cwdP baseDir f) = some old) :
    installFileStep env entry meta cfg sc false false cwdP baseDir (fs, le) f =
      ((fs.write (bakPath (destPathOf cwdP baseDir f)) old).write
          (destPathOf cwdP baseDir f)
          (installedContent env entry meta cfg sc cwdP baseDir f),
        some (fileBaseName (destPathOf cwdP baseDir f))) := by
  unfold installFileStep
  simp only [hold, if_neg, Bool.false_eq_true, not_false_eq_true, if_false]

theorem installFileStep_exists_force (env : Env) (entry : HookEntry)
    (meta : HookMeta) (cfg : ProjectConfig) (sc : Bool) (cwdP : Path)
    (baseDir : List Char) (fs : FS) (le : Option (List Char)) (f : HookFile)
    (old : List Char) (hold : fs.lookup (destPathOf cwdP baseDir f) = some old) :
    installFileStep env entry meta cfg sc true false cwdP baseDir (fs, le) f =
      (fs.write (destPathOf cwdP baseDir f)
          (installedContent env entry meta cfg sc cwdP baseDir f),
        some (fileBaseName (destPathOf cwdP baseDir f))) := by
  unfold installFileStep
  simp only [hold, if_pos, Bool.false_eq_true, not_false_eq_true, if_false]

/-- C4: when the destination of a (single-file) hook already exists,
`installHook` (and `cmdUpdate`, which delegates to it) without `force` first
copies the prior content aside to `<path>.bak` and then overwrites the
destination — the step-equation conjuncts exhibit the backup write happening
before the destination write; with `force` no `.bak` entry is created or
changed and the destination is overwritten unconditionally. -/
theorem c4_backup_semantics (env : Env) (hookId baseDir : List Char)
    (addIndex sc : Bool) (cwdP : Path) (w : World)
    (entry : HookEntry) (f : HookFile) (old : List Char)
    (hfind : List.find? (fun e => e.id == hookId) env.registry.hooks = some entry)
    (hfiles : (env.metaOf entry.path).files = [f])
    (hold : w.fs.lookup (destPathOf cwdP baseDir f) = some old)
    (hip1 : indexPath cwdP baseDir "index.ts".data ≠ destPathOf cwdP baseDir f)
    (hip2 : indexPath cwdP baseDir "index.ts".data ≠
      bakPath (destPathOf cwdP baseDir f)) :
    (installFileStep env entry (env.metaOf entry.path) (w.cfg.getD DEFAULT_CFG)
        sc false false cwdP baseDir (w.fs, none) f =
      ((w.fs.write (bakPath (destPathOf cwdP baseDir f)) old).write
          (destPathOf cwdP baseDir f)
          (installedContent env entry (env.metaOf entry.path)
            (w.cfg.getD DEFAULT_CFG) sc cwdP baseDir f),
        some (fileBaseName (destPathOf cwdP baseDir f)))) ∧
    (installFileStep env entry (env.metaOf entry.path) (w.cfg.getD DEFAULT_CFG)
        sc true false cwdP baseDir (w.fs, none) f =
      (w.fs.write (destPathOf cwdP baseDir f)
          (installedContent env entry (env.metaOf entry.path)
            (w.cfg.getD DEFAULT_CFG) sc cwdP baseDir f),
        some (fileBaseName (destPathOf cwdP baseDir f)))) ∧
    ((installHook env hookId baseDir addIndex ⟨false, false, some sc⟩ cwdP
        w).2.fs.lookup (bakPath (destPathOf cwdP baseDir f)) = some old ∧
      (installHook env hookId baseDir addIndex ⟨false, false, some sc⟩ cwdP
        w).2.fs.lookup (destPathOf cwdP baseDir f) =
        some (installedContent env entry (env.metaOf entry.path)
          (w.cfg.getD DEFAULT_CFG) sc cwdP baseDir f)) ∧
    ((installHook env hookId baseDir addIndex ⟨false, true, some sc⟩ cwdP
        w).2.fs.lookup (bakPath (destPathOf cwdP baseDir f)) =
        w.fs.lookup (bakPath (destPathOf cwdP baseDir f)) ∧
      (installHook env hookId baseDir addIndex ⟨false, true, some sc⟩ cwdP
        w).2.fs.lookup (destPathOf cwdP baseDir f) =
        some (installedContent env entry (env.metaOf entry.path)
          (w.cfg.getD DEFAULT_CFG) sc cwdP baseDir f)) ∧
    (∀ optBaseDir optAddIndex dry force,
      cmdUpdate env hookId optBaseDir optAddIndex dry force cwdP w =
        installHook env hookId
          (optBaseDir.getD ((w.cfg.map (fun c => c.baseDir)).getD
            "src/hooks".data))
          (optAddIndex.getD ((w.cfg.map (fun c => c.addIndex)).getD true))
          ⟨dry, force, some ((w.cfg.map (fun c => c.stripUseClient)).getD false)⟩
          cwdP w) := by
  have hstep1 := installFileStep_exists_noforce env entry (env.metaOf entry.path)
    (w.cfg.getD DEFAULT_CFG) sc cwdP baseDir w.fs none f old hold
  have hstep2 := installFileStep_exists_force env entry (env.metaOf entry.path)
    (w.cfg.getD DEFAULT_CFG) sc cwdP baseDir w.fs none f old hold
  have hbd : bakPath (destPathOf cwdP baseDir f) ≠ destPathOf cwdP baseDir f :=
    bakPath_ne _
  refine ⟨hstep1, hstep2, ?_, ?_, fun a b c d => rfl⟩
  · unfold installHook
    rw [hfind]
    simp only [hfiles, List.foldl_cons, List.foldl_nil]
    rw [show ((⟨false, false, some sc⟩ : InstallOpts).stripUseClient.getD
      (w.cfg.getD DEFAULT_CFG).stripUseClient) = sc from rfl] at *
    rw [hstep1]
    constructor
    · rw [updateIndex_lookup_ne _ _ _ _ _ _ _ (fun e => hip2 e.symm),
        FS.lookup_write_ne _ _ hbd, FS.lookup_write_self]
    · rw [updateIndex_lookup_ne _ _ _ _ _ _ _ (fun e => hip1 e.symm),
        FS.lookup_write_self]
  · unfold installHook
    rw [hfind]
    simp only [hfiles, List.foldl_cons, List.foldl_nil]
    rw [show ((⟨false, true, some sc⟩ : InstallOpts).stripUseClient.getD
      (w.cfg.getD DEFAULT_CFG).stripUseClient) = sc from rfl] at *
    rw [hstep2]
    constructor
    · rw [updateIndex_lookup_ne _ _ _ _ _ _ _ (fun e => hip2 e.symm),
        FS.lookup_write_ne _ _ hbd]
    · rw [updateIndex_lookup_ne _ _ _ _ _ _ _ (fun e => hip1 e.symm),
        FS.lookup_write_self]

/-- Witness for `c4_backup_semantics`. -/
theorem c4_backup_semantics_witness :
    (installHook
        ⟨⟨"http://r".data, [⟨"use-x".data, "hooks/use-x".data⟩], some "3".data⟩,
          fun _ => ⟨"use-x".data, "useX".data, some "1.2.0".data,
            [⟨"use-x.ts".data, "hooks/use-x.ts".data⟩]⟩,
          fun _ => "X".data⟩
        "use-x".data "src/hooks".data true ⟨false, false, some false⟩
        ["proj".data]
        ⟨[(["proj".data, "src".data, "hooks".data, "use-x.ts".data],
          "OLD".data)], none⟩).2.fs.lookup
      (bakPath (destPathOf ["proj".data] "src/hooks".data
        ⟨"use-x.ts".data, "hooks/use-x.ts".data⟩)) = some "OLD".data :=
  (c4_backup_semantics _ "use-x".data "src/hooks".data true false
    ["proj".data] _ ⟨"use-x".data, "hooks/use-x".data⟩
    ⟨"use-x.ts".data, "hooks/use-x.ts".data⟩ "OLD".data (by decide) (by decide)
    (by decide) (by decide) (by decide)).2.2.1.1

/-- Index contents as a sequence of newline-terminated lines. -/
def joinLines (ls : List (List Char)) : List Char :=
  (ls.map (fun l => l ++ ['\n'])).flatten

/-- No line-terminator characters inside (a proper line body). -/
def termFree (l : List Char) : Prop := ∀ c ∈ l, isLineTerm c = false

instance : DecidablePred termFree := fun l => List.decidableBAll _ l

theorem joinLines_cons (l : List Char) (rest : List (List Char)) :
    joinLines (l :: rest) = l ++ '\n' :: joinLines rest := by
  simp [joinLines]

theorem joinLines_append (a b : List (List Char)) :
    joinLines (a ++ b) = joinLines a ++ joinLines b := by
  simp [joinLines]

theorem splitFirstLT_termFree {l : List Char} (hl : termFree l) (J : List Char) :
    splitFirstLT (l ++ '\n' :: J) = some (l ++ ['\n'], J) := by
  induction l with
  | nil => simp [splitFirstLT, isLineTerm]
  | cons c l' ih =>
    have hc : isLineTerm c = false := hl c (by simp)
    have ih' := ih (fun d hd => hl d (List.mem_cons_of_mem _ hd))
    simp [splitFirstLT, hc, ih']

theorem isPrefixOf_false_of_line {S l : List Char} (hSt : termFree S)
    (hne : l ≠ S) (hpre : S.isPrefixOf l = true → l = S) (J : List Char) :
    S.isPrefixOf (l ++ '\n' :: J) = false := by
  by_contra hcon
  have h1 : S.isPrefixOf (l ++ '\n' :: J) = true := by
    cases h : S.isPrefixOf (l ++ '\n' :: J)
    · exact absurd h hcon
    · rfl
  obtain ⟨t, ht⟩ := (isPrefixOf_eq _ _).mp h1
  by_cases hlen : S.length ≤ l.length
  · have hSpre : S <+: l := by
      have h2 : S <+: l ++ '\n' :: J := ⟨t, ht.symm⟩
      have h3 : l <+: l ++ '\n' :: J := ⟨'\n' :: J, rfl⟩
      exact List.prefix_of_prefix_length_le h2 h3 hlen
    obtain ⟨u, hu⟩ := hSpre
    have : S.isPrefixOf l = true := (isPrefixOf_eq _ _).mpr ⟨u, hu.symm⟩
    exact hne (hpre this)
  · push_neg at hlen
    have hlpre : l <+: S := by
      have h2 : S <+: l ++ '\n' :: J := ⟨t, ht.symm⟩
      have h3 : l <+: l ++ '\n' :: J := ⟨'\n' :: J, rfl⟩
      exact List.prefix_of_prefix_length_le h3 h2 (Nat.le_of_lt hlen)
    obtain ⟨u, hu⟩ := hlpre
    have hu' : u ≠ [] := by
      intro he
      rw [he, List.append_nil] at hu
      exact absurd (congrArg List.length hu) (by omega)
    obtain ⟨c0, u', rfl⟩ := List.exists_cons_of_ne_nil hu'
    have hc0 : c0 = '\n' := by
      rw [← hu, List.append_assoc] at ht
      have h4 := List.append_cancel_left ht
      simp only [List.cons_append, List.cons.injEq] at h4
      exact h4.1.symm
    have hterm : isLineTerm c0 = false := hSt c0 (by rw [← hu]; simp)
    rw [hc0] at hterm
    simp [isLineTerm] at hterm

theorem remFirst_nil (S : List Char) (hS : S ≠ []) : remFirst S [] = none := by
  obtain ⟨c, S', rfl⟩ := List.exists_cons_of_ne_nil hS
  simp [remFirst, remFirstAux, List.isPrefixOf]

/-- The removal regex on a well-formed sequence of lines: when every line
that starts with the statement is exactly the statement, the first match
removes exactly the first occurrence of the statement line, and there is no
match iff no such line exists. -/
theorem remFirst_join (S : List Char) (hS : S ≠ []) (hSt : termFree S) :
    ∀ ls : List (List Char),
      (∀ l ∈ ls, termFree l ∧ (S.isPrefixOf l = true → l = S)) →
      remFirst S (joinLines ls) =
        if S ∈ ls then some (joinLines (ls.erase S)) else none := by
  intro ls
  induction ls with
  | nil =>
    intro _
    rw [if_neg (List.not_mem_nil S)]
    exact remFirst_nil S hS
  | cons l rest ih =>
    intro h
    rw [joinLines_cons]
    by_cases hl : l = S
    · subst hl
      have hpre : l.isPrefixOf (l ++ '\n' :: joinLines rest) = true :=
        (isPrefixOf_eq _ _).mpr ⟨'\n' :: joinLines rest, rfl⟩
      rw [remFirst_pref hpre, if_pos (List.mem_cons_self l rest)]
      rw [List.drop_left]
      rw [show List.erase (l :: rest) l = rest from by
        rw [List.erase_cons_head]]
      rfl
    · have hpre : S.isPrefixOf (l ++ '\n' :: joinLines rest) = false :=
        isPrefixOf_false_of_line hSt hl (h l (by simp)).2 _
      have hsp := splitFirstLT_termFree (h l (by simp)).1 (joinLines rest)
      rw [remFirst_step hpre hsp,
        ih (fun x hx => h x (List.mem_cons_of_mem _ hx))]
      by_cases hin : S ∈ rest
      · rw [if_pos hin, if_pos (List.mem_cons_of_mem _ hin)]
        rw [show List.erase (l :: rest) S = l :: rest.erase S from by
          rw [List.erase_cons_tail]
          simp [hl]]
        rw [joinLines_cons]
        simp [List.append_assoc]
      · rw [if_neg hin, if_neg (fun hmem => by
          rcases List.mem_cons.mp hmem with h' | h'
          · exact hl h'.symm
          · exact hin h')]
        rfl

/-- `containsSub` is substring occurrence. -/
theorem containsSub_iff (n s : List Char) :
    containsSub n s = true ↔ ∃ pre suf, s = pre ++ n ++ suf := by
  induction s with
  | nil =>
    simp only [containsSub]
    rw [isPrefixOf_eq]
    constructor
    · rintro ⟨t, ht⟩
      exact ⟨[], t, by simpa using ht⟩
    · rintro ⟨pre, suf, hps⟩
      have h0 := List.append_eq_nil.mp hps.symm
      have h1 := List.append_eq_nil.mp h0.1
      exact ⟨[], by simp [h1.2]⟩
  | cons c t ih =>
    simp only [containsSub, Bool.or_eq_true, ih]
    rw [isPrefixOf_eq]
    constructor
    · rintro (⟨u, hu⟩ | ⟨pre, suf, hps⟩)
      · exact ⟨[], u, by simpa using hu⟩
      · exact ⟨c :: pre, suf, by simp [hps]⟩
    · rintro ⟨pre, suf, hps⟩
      cases pre with
      | nil => exact Or.inl ⟨suf, by simpa using hps⟩
      | cons p0 pre' =>
        right
        have hps' : c = p0 ∧ t = pre' ++ (n ++ suf) := by simpa using hps
        exact ⟨pre', suf, by simp [hps'.2]⟩

/-- An exact statement line in the index makes the appended line (statement
plus newline) a substring of the joined content. -/
theorem containsSub_of_mem {S : List Char} {ls : List (List Char)}
    (h : S ∈ ls) : containsSub (S ++ ['\n']) (joinLines ls) = true := by
  obtain ⟨pre, post, rfl⟩ := List.append_of_mem h
  rw [containsSub_iff]
  refine ⟨joinLines pre, joinLines post, ?_⟩
  rw [joinLines_append, joinLines_cons]
  simp [List.append_assoc]

theorem erase_of_count_le_one {S : List Char} {ls : List (List Char)}
    (h : List.count S ls ≤ 1) :
    ls.erase S = ls.filter (fun l => !(l == S)) := by
  induction ls with
  | nil => rfl
  | cons l rest ih =>
    by_cases hl : l = S
    · subst hl
      rw [List.erase_cons_head]
      have hcnt : List.count l rest = 0 := by
        have hcc := List.count_cons_self l rest
        omega
      have hnm : l ∉ rest := List.count_eq_zero.mp hcnt
      have hflt : rest.filter (fun x => !(x == l)) = rest :=
        List.filter_eq_self.mpr (fun a ha => by
          simp only [Bool.not_eq_true']
          exact beq_eq_false_iff_ne.mpr (fun e => hnm (e ▸ ha)))
      rw [List.filter_cons, if_neg (by simp)]
      exact hflt.symm
    · rw [List.erase_cons_tail (by simp [hl])]
      rw [List.filter_cons, if_pos (by simp [hl])]
      rw [ih (by
        have hcc := List.count_cons_of_ne (fun e => hl e.symm) rest
        omega)]

theorem foldErase_eq_filter :
    ∀ (stmts : List (List Char)) (ls : List (List Char)),
      (∀ S ∈ stmts, List.count S ls ≤ 1) →
      stmts.foldl (fun acc S => acc.erase S) ls =
        ls.filter (fun l => !(stmts.contains l)) := by
  intro stmts
  induction stmts with
  | nil =>
    intro ls _
    simp
  | cons S0 rest ih =>
    intro ls h
    rw [List.foldl_cons, erase_of_count_le_one (h S0 (by simp))]
    rw [ih _ (fun S hS => le_trans ((List.filter_sublist _).count_le S)
      (h S (List.mem_cons_of_mem _ hS)))]
    rw [List.filter_filter]
    apply List.filter_congr
    intro a _
    simp only [List.contains_cons, Bool.not_or]
    rw [Bool.and_comm]

/-- The content transformation of one index-pruning pass for a
metacharacter-free base (`reg.test` then `replace` is: keep the content when
there is no match, else remove the first match; `removeIndexStep_lookup_self`
proves the compiled regex realizes exactly this under `plainBase`). -/
def pruneContent (base : List Char) (c : List Char) : List Char :=
  match remFirst (exportStmt base) c with
  | some next => next
  | none => c

theorem indexPath_concat (cwdP : Path) (baseDir n : List Char)
    (h1 : splitOnChar '/' n = [n])
    (h2 : n ≠ [] ∧ n ≠ ".".data ∧ n ≠ "..".data)
    (h3 : n.head? ≠ some '/') :
    indexPath cwdP baseDir n = jsResolve cwdP baseDir ++ [n] := by
  unfold indexPath cwd2
  rw [show jsResolve (jsResolve cwdP baseDir) n =
    applyComps (jsResolve cwdP baseDir) (splitOnChar '/' n) from by
      unfold jsResolve
      rw [if_neg h3]]
  rw [h1]
  exact applyComps_push _ (fun c hc => by
    rw [List.mem_singleton.mp hc]; exact h2)

theorem indexPath_ts_ne_js (cwdP : Path) (baseDir : List Char) :
    indexPath cwdP baseDir "index.ts".data ≠ indexPath cwdP baseDir "index.js".data := by
  rw [indexPath_concat cwdP baseDir "index.ts".data (by decide) (by decide)
      (by decide),
    indexPath_concat cwdP baseDir "index.js".data (by decide) (by decide)
      (by decide)]
  intro h
  have h2 := List.append_cancel_left h
  simp at h2

theorem removeIndexStep_lookup_self (cwdP : Path) (baseDir base idxName : List Char)
    (fs : FS) (hb : plainBase base = true) :
    (removeIndexStep cwdP baseDir base fs idxName).lookup
        (indexPath cwdP baseDir idxName) =
      (fs.lookup (indexPath cwdP baseDir idxName)).map (pruneContent base) := by
  unfold removeIndexStep
  cases hc : fs.lookup (indexPath cwdP baseDir idxName) with
  | none => simp [hc]
  | some curr =>
    simp only [hc]
    rw [compileRemove_plain base hb]
    simp only []
    rw [remFirstRe_std]
    cases hr : remFirst (exportStmt base) curr with
    | some next => simp [hr, FS.lookup_write_self, pruneContent]
    | none => simp [hr, hc, pruneContent]

theorem removeIndexStep_lookup_ne (cwdP : Path) (baseDir base idxName : List Char)
    (fs : FS) (q : Path) (hq : q ≠ indexPath cwdP baseDir idxName) :
    (removeIndexStep cwdP baseDir base fs idxName).lookup q = fs.lookup q := by
  unfold removeIndexStep
  cases hc : fs.lookup (indexPath cwdP baseDir idxName) with
  | none => simp [hc]
  | some curr =>
    simp only [hc]
    cases hcomp : compileRemove base with
    | none => simp [hcomp]
    | some items =>
      simp only [hcomp]
      cases hr : remFirstRe items curr with
      | some next => simp [hr, FS.lookup_write_ne _ _ hq]
      | none => simp [hr]

theorem removeFileStep_dest (cwdP : Path) (baseDir : List Char) (fs : FS)
    (f : HookFile)
    (h1 : destPathOf cwdP baseDir f ≠ indexPath cwdP baseDir "index.ts".data)
    (h2 : destPathOf cwdP baseDir f ≠ indexPath cwdP baseDir "index.js".data) :
    (removeFileStep cwdP baseDir fs f).lookup (destPathOf cwdP baseDir f) =
      none := by
  unfold removeFileStep
  rw [removeIndexStep_lookup_ne _ _ _ _ _ _ h2,
    removeIndexStep_lookup_ne _ _ _ _ _ _ h1]
  cases hs : fs.lookup (destPathOf cwdP baseDir f) with
  | none => simp [hs]
  | some c => simp [hs, FS.lookup_erase_self]

theorem removeFileStep_ts (cwdP : Path) (baseDir : List Char) (fs : FS)
    (f : HookFile)
    (h1 : destPathOf cwdP baseDir f ≠ indexPath cwdP baseDir "index.ts".data)
    (hb : plainBase (fileBaseName (destPathOf cwdP baseDir f)) = true) :
    (removeFileStep cwdP baseDir fs f).lookup
        (indexPath cwdP baseDir "index.ts".data) =
      (fs.lookup (indexPath cwdP baseDir "index.ts".data)).map
        (pruneContent (fileBaseName (destPathOf cwdP baseDir f))) := by
  unfold removeFileStep
  rw [removeIndexStep_lookup_ne _ _ _ _ _ _ (indexPath_ts_ne_js cwdP baseDir)]
  rw [removeIndexStep_lookup_self _ _ _ _ _ hb]
  congr 1
  cases hs : fs.lookup (destPathOf cwdP baseDir f) with
  | none => simp [hs]
  | some c => simp [hs, FS.lookup_erase_ne _ (fun e => h1 e.symm)]

theorem removeFileStep_js (cwdP : Path) (baseDir : List Char) (fs : FS)
    (f : HookFile)
    (h2 : destPathOf cwdP baseDir f ≠ indexPath cwdP baseDir "index.js".data)
    (hb : plainBase (fileBaseName (destPathOf cwdP baseDir f)) = true) :
    (removeFileStep cwdP baseDir fs f).lookup
        (indexPath cwdP baseDir "index.js".data) =
      (fs.lookup (indexPath cwdP baseDir "index.js".data)).map
        (pruneContent (fileBaseName (destPathOf cwdP baseDir f))) := by
  unfold removeFileStep
  rw [removeIndexStep_lookup_self _ _ _ _ _ hb]
  rw [removeIndexStep_lookup_ne _ _ _ _ _ _
    (fun e => (indexPath_ts_ne_js cwdP baseDir) e.symm)]
  congr 1
  cases hs : fs.lookup (destPathOf cwdP baseDir f) with
  | none => simp [hs]
  | some c => simp [hs, FS.lookup_erase_ne _ (fun e => h2 e.symm)]

theorem removeFileStep_frame (cwdP : Path) (baseDir : List Char) (fs : FS)
    (f : HookFile) (q : Path)
    (hqd : q ≠ destPathOf cwdP baseDir f)
    (hq1 : q ≠ indexPath cwdP baseDir "index.ts".data)
    (hq2 : q ≠ indexPath cwdP baseDir "index.js".data) :
    (removeFileStep cwdP baseDir fs f).lookup q = fs.lookup q := by
  unfold removeFileStep
  rw [removeIndexStep_lookup_ne _ _ _ _ _ _ hq2,
    removeIndexStep_lookup_ne _ _ _ _ _ _ hq1]
  cases hs : fs.lookup (destPathOf cwdP baseDir f) with
  | none => simp [hs]
  | some c => simp [hs, FS.lookup_erase_ne _ hqd]

theorem installFileStep_lookup_ne (env : Env) (entry : HookEntry)
    (meta : HookMeta) (cfg : ProjectConfig) (sc force : Bool) (cwdP : Path)
    (baseDir : List Char) (st : FS × Option (List Char)) (f : HookFile)
    (q : Path) (h1 : q ≠ destPathOf cwdP baseDir f)
    (h2 : q ≠ bakPath (destPathOf cwdP baseDir f)) :
    ((installFileStep env entry meta cfg sc force false cwdP baseDir st f).1).lookup q
      = st.1.lookup q := by
  unfold installFileStep
  simp only [Bool.false_eq_true, if_false]
  rw [FS.lookup_write_ne _ _ h1]
  cases hs : st.1.lookup (destPathOf cwdP baseDir f) with
  | none => rfl
  | some old =>
    simp only [hs]
    cases force with
    | true => rfl
    | false => simp [FS.lookup_write_ne _ _ h2]

theorem installFold_frame (env : Env) (entry : HookEntry) (meta : HookMeta)
    (cfg : ProjectConfig) (sc force : Bool) (cwdP : Path) (baseDir : List Char) :
    ∀ (todo : List HookFile) (st : FS × Option (List Char)) (q : Path),
      (∀ f ∈ todo, q ≠ destPathOf cwdP baseDir f ∧
        q ≠ bakPath (destPathOf cwdP baseDir f)) →
      ((todo.foldl
          (installFileStep env entry meta cfg sc force false cwdP baseDir)
          st).1).lookup q = st.1.lookup q := by
  intro todo
  induction todo with
  | nil => intro st q _; rfl
  | cons f rest ih =>
    intro st q h
    rw [List.foldl_cons,
      ih _ q (fun g hg => h g (List.mem_cons_of_mem f hg)),
      installFileStep_lookup_ne env entry meta cfg sc force cwdP baseDir st f q
        (h f (List.mem_cons_self f rest)).1 (h f (List.mem_cons_self f rest)).2]

theorem installFold_snd (env : Env) (entry : HookEntry) (meta : HookMeta)
    (cfg : ProjectConfig) (sc force : Bool) (cwdP : Path) (baseDir : List Char) :
    ∀ (todo : List HookFile) (st : FS × Option (List Char)),
      (todo.foldl
          (installFileStep env entry meta cfg sc force false cwdP baseDir)
          st).2 =
        match todo.getLast? with
        | some f => some (fileBaseName (destPathOf cwdP baseDir f))
        | none => st.2 := by
  intro todo
  induction todo with
  | nil => intro st; rfl
  | cons f rest ih =>
    intro st
    rw [List.foldl_cons, ih]
    cases rest with
    | nil => rfl
    | cons g gs =>
      rw [List.getLast?_cons_cons]
      cases hg : (g :: gs).getLast? with
      | none => simp at hg
      | some x => rfl

theorem updateIndex_lookup_self (cwdP : Path) (baseDir nm : List Char)
    (fs : FS) :
    (updateIndex true false cwdP baseDir (some nm) fs).lookup
        (indexPath cwdP baseDir "index.ts".data) =
      some (match fs.lookup (indexPath cwdP baseDir "index.ts".data) with
        | some curr =>
          if containsSub (exportLine nm) curr then curr else curr ++ exportLine nm
        | none => exportLine nm) := by
  unfold updateIndex
  simp only [if_true]
  cases hc : fs.lookup (indexPath cwdP baseDir "index.ts".data) with
  | none => simp [hc, FS.lookup_write_self]
  | some curr =>
    simp only [hc]
    cases hcs : containsSub (exportLine nm) curr with
    | true => simp [hcs, hc]
    | false => simp [hcs, FS.lookup_write_self]

theorem removeFold (cwdP : Path) (baseDir : List Char) :
    ∀ (todo : List HookFile) (fs : FS),
      (∀ f ∈ todo,
        destPathOf cwdP baseDir f ≠ indexPath cwdP baseDir "index.ts".data ∧
        destPathOf cwdP baseDir f ≠ indexPath cwdP baseDir "index.js".data) →
      (∀ f ∈ todo, plainBase (fileBaseName (destPathOf cwdP baseDir f)) = true) →
      (∀ f ∈ todo,
          (todo.foldl (removeFileStep cwdP baseDir) fs).lookup
            (destPathOf cwdP baseDir f) = none) ∧
      (todo.foldl (removeFileStep cwdP baseDir) fs).lookup
          (indexPath cwdP baseDir "index.ts".data) =
        (fs.lookup (indexPath cwdP baseDir "index.ts".data)).map
          (fun c => todo.foldl
            (fun acc f => pruneContent (fileBaseName (destPathOf cwdP baseDir f)) acc) c) ∧
      (todo.foldl (removeFileStep cwdP baseDir) fs).lookup
          (indexPath cwdP baseDir "index.js".data) =
        (fs.lookup (indexPath cwdP baseDir "index.js".data)).map
          (fun c => todo.foldl
            (fun acc f => pruneContent (fileBaseName (destPathOf cwdP baseDir f)) acc) c) ∧
      ∀ q : Path, (∀ f ∈ todo, q ≠ destPathOf cwdP baseDir f) →
        q ≠ indexPath cwdP baseDir "index.ts".data →
        q ≠ indexPath cwdP baseDir "index.js".data →
        (todo.foldl (removeFileStep cwdP baseDir) fs).lookup q = fs.lookup q := by
  intro todo
  induction todo with
  | nil =>
    intro fs _ _
    refine ⟨fun f hf => absurd hf (List.not_mem_nil f), ?_, ?_, fun q _ _ _ => rfl⟩
    · rw [List.foldl_nil]
      cases fs.lookup (indexPath cwdP baseDir "index.ts".data) <;> rfl
    · rw [List.foldl_nil]
      cases fs.lookup (indexPath cwdP baseDir "index.js".data) <;> rfl
  | cons f rest ih =>
    intro fs hsep hpb
    have hf := hsep f (List.mem_cons_self f rest)
    have hfb := hpb f (List.mem_cons_self f rest)
    have hrest := fun g hg => hsep g (List.mem_cons_of_mem f hg)
    have hpbrest := fun g hg => hpb g (List.mem_cons_of_mem f hg)
    have IH := ih (removeFileStep cwdP baseDir fs f) hrest hpbrest
    refine ⟨?_, ?_, ?_, ?_⟩
    · intro g hg
      rcases List.mem_cons.mp hg with hgf | hgr
      · rw [hgf]
        by_cases hmem : ∃ g ∈ rest,
            destPathOf cwdP baseDir g = destPathOf cwdP baseDir f
        · obtain ⟨g, hgr, he⟩ := hmem
          rw [List.foldl_cons, ← he]
          exact IH.1 g hgr
        · rw [List.foldl_cons,
            IH.2.2.2 (destPathOf cwdP baseDir f)
              (fun g hg e => hmem ⟨g, hg, e.symm⟩) hf.1 hf.2]
          exact removeFileStep_dest cwdP baseDir fs f hf.1 hf.2
      · rw [List.foldl_cons]
        exact IH.1 g hgr
    · rw [List.foldl_cons, IH.2.1,
        removeFileStep_ts cwdP baseDir fs f hf.1 hfb, Option.map_map]
      rfl
    · rw [List.foldl_cons, IH.2.2.1,
        removeFileStep_js cwdP baseDir fs f hf.2 hfb, Option.map_map]
      rfl
    · intro q hqd hq1 hq2
      rw [List.foldl_cons,
        IH.2.2.2 q (fun g hg => hqd g (List.mem_cons_of_mem f hg)) hq1 hq2,
        removeFileStep_frame cwdP baseDir fs f q
          (hqd f (List.mem_cons_self f rest)) hq1 hq2]

theorem installHook_fs_index (env : Env) (hookId baseDir : List Char)
    (force sc : Bool) (cwdP : Path) (w : World) (entry : HookEntry)
    (flast : HookFile)
    (hfind : List.find? (fun h => h.id == hookId) env.registry.hooks = some entry)
    (hlast : (env.metaOf entry.path).files.getLast? = some flast)
    (hframe : ∀ f ∈ (env.metaOf entry.path).files,
      indexPath cwdP baseDir "index.ts".data ≠ destPathOf cwdP baseDir f ∧
      indexPath cwdP baseDir "index.ts".data ≠ bakPath (destPathOf cwdP baseDir f)) :
    (installHook env hookId baseDir true ⟨false, force, some sc⟩ cwdP w).2.fs.lookup
        (indexPath cwdP baseDir "index.ts".data) =
      some (match w.fs.lookup (indexPath cwdP baseDir "index.ts".data) with
        | some curr =>
          if containsSub (exportLine (fileBaseName (destPathOf cwdP baseDir flast))) curr
          then curr
          else curr ++ exportLine (fileBaseName (destPathOf cwdP baseDir flast))
        | none => exportLine (fileBaseName (destPathOf cwdP baseDir flast))) := by
  unfold installHook
  rw [hfind]
  dsimp only
  rw [installFold_snd, hlast]
  rw [updateIndex_lookup_self]
  rw [installFold_frame _ _ _ _ _ _ _ _ _ _ _ hframe]

theorem installHook_fs_frame (env : Env) (hookId baseDir : List Char)
    (addIndex : Bool) (opts : InstallOpts) (cwdP : Path) (w : World)
    (entry : HookEntry) (q : Path)
    (hfind : List.find? (fun h => h.id == hookId) env.registry.hooks = some entry)
    (hdry : opts.dry = false)
    (hq : q ≠ indexPath cwdP baseDir "index.ts".data)
    (hframe : ∀ f ∈ (env.metaOf entry.path).files,
      q ≠ destPathOf cwdP baseDir f ∧ q ≠ bakPath (destPathOf cwdP baseDir f)) :
    (installHook env hookId baseDir addIndex opts cwdP w).2.fs.lookup q =
      w.fs.lookup q := by
  unfold installHook
  rw [hfind]
  dsimp only
  rw [hdry]
  rw [updateIndex_lookup_ne _ _ _ _ _ _ _ hq]
  rw [installFold_frame _ _ _ _ _ _ _ _ _ _ _ hframe]

theorem installHook_cfg (env : Env) (hookId baseDir : List Char)
    (addIndex : Bool) (opts : InstallOpts) (cwdP : Path) (w : World)
    (entry : HookEntry)
    (hfind : List.find? (fun h => h.id == hookId) env.registry.hooks = some entry) :
    (installHook env hookId baseDir addIndex opts cwdP w).2.cfg = w.cfg := by
  unfold installHook
  rw [hfind]

theorem installHook_err (env : Env) (hookId baseDir : List Char)
    (addIndex : Bool) (opts : InstallOpts) (cwdP : Path) (w : World)
    (entry : HookEntry)
    (hfind : List.find? (fun h => h.id == hookId) env.registry.hooks = some entry) :
    (installHook env hookId baseDir addIndex opts cwdP w).1 = none := by
  unfold installHook
  rw [hfind]

theorem line_prefix_eq (J : List Char) :
    ∀ (S l : List Char), termFree S → termFree l →
      (S ++ ['\n']).isPrefixOf (l ++ '\n' :: J) = true → l = S := by
  intro S
  induction S with
  | nil =>
    intro l _ hl hpre
    cases l with
    | nil => rfl
    | cons c l' =>
      simp only [List.nil_append, List.cons_append, List.isPrefixOf] at hpre
      have hc : isLineTerm c = false := hl c (by simp)
      rcases (Bool.and_eq_true _ _).mp hpre with ⟨he, _⟩
      have : c = '\n' := by
        have := of_decide_eq_true he
        exact this.symm
      rw [this] at hc
      simp [isLineTerm] at hc
  | cons s S' ih =>
    intro l hS hl hpre
    cases l with
    | nil =>
      simp only [List.cons_append, List.nil_append, List.isPrefixOf] at hpre
      rcases (Bool.and_eq_true _ _).mp hpre with ⟨he, _⟩
      have hs : isLineTerm s = false := hS s (by simp)
      have : s = '\n' := of_decide_eq_true he
      rw [this] at hs
      simp [isLineTerm] at hs
    | cons c l' =>
      simp only [List.cons_append, List.isPrefixOf] at hpre
      rcases (Bool.and_eq_true _ _).mp hpre with ⟨he, hrest⟩
      have hsc : s = c := of_decide_eq_true he
      have hl' : l' = S' := ih l' (fun d hd => hS d (List.mem_cons_of_mem _ hd))
        (fun d hd => hl d (List.mem_cons_of_mem _ hd)) hrest
      rw [hl', hsc]

theorem containsSub_line_cases (S : List Char) (hS : termFree S) :
    ∀ (l : List Char), termFree l → ∀ J,
      containsSub (S ++ ['\n']) (l ++ '\n' :: J) = true →
      (∃ p, l = p ++ S) ∨ containsSub (S ++ ['\n']) J = true := by
  intro l
  induction l with
  | nil =>
    intro _ J h
    simp only [List.nil_append, containsSub] at h
    rcases Bool.or_eq_true_iff.mp h with hpre | hsub
    · left
      have := line_prefix_eq J S [] hS (fun c hc => absurd hc (List.not_mem_nil c)) hpre
      exact ⟨[], by rw [← this]; rfl⟩
    · right; exact hsub
  | cons c l' ih =>
    intro hl J h
    simp only [List.cons_append, containsSub] at h
    rcases Bool.or_eq_true_iff.mp h with hpre | hsub
    · left
      have := line_prefix_eq J S (c :: l') hS hl (by
        simpa using hpre)
      exact ⟨[], by rw [← this]; rfl⟩
    · rcases ih (fun d hd => hl d (List.mem_cons_of_mem _ hd)) J hsub with ⟨p, hp⟩ | hc
      · exact Or.inl ⟨c :: p, by rw [List.cons_append, ← hp]⟩
      · exact Or.inr hc

theorem containsSub_cons_of_tail {n : List Char} {t : List Char} (c : Char)
    (h : containsSub n t = true) : containsSub n (c :: t) = true := by
  simp [containsSub, h]

theorem containsSub_append_of_right {n s : List Char} :
    ∀ pre : List Char, containsSub n s = true → containsSub n (pre ++ s) = true := by
  intro pre h
  induction pre with
  | nil => exact h
  | cons c p ih => exact containsSub_cons_of_tail c ih

theorem containsSub_join_iff (S : List Char) (hS : termFree S) :
    ∀ ls : List (List Char), (∀ l ∈ ls, termFree l) →
      (containsSub (S ++ ['\n']) (joinLines ls) = true ↔
        ∃ l ∈ ls, ∃ p, l = p ++ S) := by
  intro ls
  induction ls with
  | nil =>
    intro _
    constructor
    · intro h
      cases S with
      | nil => simp [containsSub, joinLines, List.isPrefixOf] at h
      | cons s S' => simp [containsSub, joinLines, List.isPrefixOf] at h
    · rintro ⟨l, hl, _⟩
      exact absurd hl (List.not_mem_nil l)
  | cons l rest ih =>
    intro hls
    have hl := hls l (List.mem_cons_self l rest)
    have hrest := fun d hd => hls d (List.mem_cons_of_mem l hd)
    rw [joinLines_cons]
    constructor
    · intro h
      rcases containsSub_line_cases S hS l hl (joinLines rest) h with ⟨p, hp⟩ | hc
      · exact ⟨l, List.mem_cons_self l rest, p, hp⟩
      · obtain ⟨g, hg, p, hp⟩ := (ih hrest).mp hc
        exact ⟨g, List.mem_cons_of_mem l hg, p, hp⟩
    · rintro ⟨g, hg, p, hp⟩
      rcases List.mem_cons.mp hg with hgl | hgr
      · rw [← hgl, hp]
        rw [containsSub_iff]
        exact ⟨p, joinLines rest, by simp⟩
      · have := (ih hrest).mpr ⟨g, hgr, p, hp⟩
        have h2 := containsSub_append_of_right (n := S ++ ['\n']) l
          (containsSub_cons_of_tail '\n' this)
        simpa using h2

theorem exportStmt_termFree {base : List Char} (hb : termFree base) :
    termFree (exportStmt base) := by
  intro c hc
  unfold exportStmt at hc
  rcases List.mem_append.mp hc with h1 | h2
  · rcases List.mem_append.mp h1 with h3 | h4
    · exact (by decide : ∀ d ∈ "export * from \"./".data, isLineTerm d = false) c h3
    · exact hb c h4
  · exact (by decide : ∀ d ∈ "\";".data, isLineTerm d = false) c h2

/-- C5 (amended): index maintenance during install appends the export line
only when `String.prototype.includes` does not find it as a substring of the
current index, and the code intends a whole-line presence check.  The two
coincide — and installing the same hook twice then leaves the export statement
in the index exactly once, idempotently — provided the index is a sequence of
newline-terminated terminator-free lines in which the hook's export statement
occurs at most once and only as a whole line (no line merely ends with it).
Without the suffix proviso the original claim fails: the substring test also
fires on a line that ends with the statement, skipping the append while the
index contains the exact line zero times (see the counterexample). -/
theorem c5_index_append_idempotent
    (env : Env) (hookId baseDir : List Char) (force sc : Bool) (cwdP : Path)
    (w : World) (entry : HookEntry) (flast : HookFile) (ls : List (List Char))
    (hfind : List.find? (fun h => h.id == hookId) env.registry.hooks = some entry)
    (hlast : (env.metaOf entry.path).files.getLast? = some flast)
    (hframe : ∀ f ∈ (env.metaOf entry.path).files,
      indexPath cwdP baseDir "index.ts".data ≠ destPathOf cwdP baseDir f ∧
      indexPath cwdP baseDir "index.ts".data ≠ bakPath (destPathOf cwdP baseDir f))
    (hidx : w.fs.lookup (indexPath cwdP baseDir "index.ts".data) =
      some (joinLines ls))
    (hlines : ∀ l ∈ ls, termFree l)
    (hbase : termFree (fileBaseName (destPathOf cwdP baseDir flast)))
    (hexact : ∀ l ∈ ls,
      (exportStmt (fileBaseName (destPathOf cwdP baseDir flast))).isSuffixOf l =
        true → l = exportStmt (fileBaseName (destPathOf cwdP baseDir flast)))
    (hcnt : List.count
      (exportStmt (fileBaseName (destPathOf cwdP baseDir flast))) ls ≤ 1) :
    ∃ ls',
      ((installHook env hookId baseDir true ⟨false, force, some sc⟩ cwdP
          (installHook env hookId baseDir true ⟨false, force, some sc⟩ cwdP
            w).2).2).fs.lookup (indexPath cwdP baseDir "index.ts".data) =
        some (joinLines ls') ∧
      List.count (exportStmt (fileBaseName (destPathOf cwdP baseDir flast))) ls' = 1 ∧
      (containsSub (exportLine (fileBaseName (destPathOf cwdP baseDir flast)))
          (joinLines ls) = true → ls' = ls) ∧
      (containsSub (exportLine (fileBaseName (destPathOf cwdP baseDir flast)))
          (joinLines ls) = false →
        ls' = ls ++ [exportStmt (fileBaseName (destPathOf cwdP baseDir flast))]) := by
  have hSt : termFree (exportStmt (fileBaseName (destPathOf cwdP baseDir flast))) :=
    exportStmt_termFree hbase
  have hline : exportLine (fileBaseName (destPathOf cwdP baseDir flast)) =
      exportStmt (fileBaseName (destPathOf cwdP baseDir flast)) ++ ['\n'] := rfl
  have h1 := installHook_fs_index env hookId baseDir force sc cwdP w entry flast
    hfind hlast hframe
  rw [hidx] at h1
  dsimp only at h1
  cases hc : containsSub (exportLine (fileBaseName (destPathOf cwdP baseDir flast)))
      (joinLines ls) with
  | true =>
    have hmem : exportStmt (fileBaseName (destPathOf cwdP baseDir flast)) ∈ ls := by
      rw [hline] at hc
      obtain ⟨l, hl, p, hp⟩ :=
        (containsSub_join_iff _ hSt ls hlines).mp hc
      have hsuf : (exportStmt (fileBaseName (destPathOf cwdP baseDir flast))).isSuffixOf l
          = true := by
        rw [hp]
        exact List.isSuffixOf_iff_suffix.mpr ⟨p, rfl⟩
      have he := hexact l hl hsuf
      rw [← he]
      exact hl
    rw [hc, if_pos rfl] at h1
    have h2 := installHook_fs_index env hookId baseDir force sc cwdP
      (installHook env hookId baseDir true ⟨false, force, some sc⟩ cwdP w).2
      entry flast hfind hlast hframe
    rw [h1] at h2
    dsimp only at h2
    rw [hc, if_pos rfl] at h2
    refine ⟨ls, h2, ?_, fun _ => rfl, fun hcf => Bool.noConfusion hcf⟩
    exact Nat.le_antisymm hcnt (List.count_pos_iff.mpr hmem)
  | false =>
    have hnotmem : exportStmt (fileBaseName (destPathOf cwdP baseDir flast)) ∉ ls := by
      intro hmem
      have h3 := containsSub_of_mem hmem
      rw [← hline, hc] at h3
      cases h3
    have hjoin : joinLines ls ++
        exportLine (fileBaseName (destPathOf cwdP baseDir flast)) =
        joinLines (ls ++ [exportStmt (fileBaseName (destPathOf cwdP baseDir flast))]) := by
      rw [joinLines_append]
      simp [joinLines, exportLine]
    rw [hc] at h1
    simp only [Bool.false_eq_true, if_false] at h1
    rw [hjoin] at h1
    have hmem2 : exportStmt (fileBaseName (destPathOf cwdP baseDir flast)) ∈
        ls ++ [exportStmt (fileBaseName (destPathOf cwdP baseDir flast))] := by simp
    have hc2 : containsSub (exportLine (fileBaseName (destPathOf cwdP baseDir flast)))
        (joinLines (ls ++ [exportStmt (fileBaseName (destPathOf cwdP baseDir flast))]))
        = true := by
      rw [hline]
      exact containsSub_of_mem hmem2
    have h2 := installHook_fs_index env hookId baseDir force sc cwdP
      (installHook env hookId baseDir true ⟨false, force, some sc⟩ cwdP w).2
      entry flast hfind hlast hframe
    rw [h1] at h2
    dsimp only at h2
    rw [hc2, if_pos rfl] at h2
    refine ⟨ls ++ [exportStmt (fileBaseName (destPathOf cwdP baseDir flast))], h2, ?_,
      fun hct => Bool.noConfusion hct, fun _ => rfl⟩
    rw [List.count_append, List.count_eq_zero_of_not_mem hnotmem]
    simp

/-- C5 counterexample: with the one-line index `xexport * from "./use-x";`,
installing `use-x` twice leaves the index byte-for-byte unchanged — the
`includes` test finds the export line as a proper substring — so the index
contains the hook's export statement zero times, not exactly once. -/
theorem c5_index_append_counterexample :
    ((installHook
        ⟨⟨"http://r".data, [⟨"use-x".data, "hooks/use-x".data⟩], some "3".data⟩,
          fun _ => ⟨"use-x".data, "useX".data, some "1.2.0".data,
            [⟨"use-x.ts".data, "hooks/use-x.ts".data⟩]⟩,
          fun _ => "X".data⟩
        "use-x".data "src/hooks".data true ⟨false, false, some false⟩
        ["proj".data]
        (installHook
          ⟨⟨"http://r".data, [⟨"use-x".data, "hooks/use-x".data⟩], some "3".data⟩,
            fun _ => ⟨"use-x".data, "useX".data, some "1.2.0".data,
              [⟨"use-x.ts".data, "hooks/use-x.ts".data⟩]⟩,
            fun _ => "X".data⟩
          "use-x".data "src/hooks".data true ⟨false, false, some false⟩
          ["proj".data]
          ⟨[(["proj".data, "src".data, "hooks".data, "index.ts".data],
            joinLines ["xexport * from \"./use-x\";".data])], none⟩).2).2).fs.lookup
      (indexPath ["proj".data] "src/hooks".data "index.ts".data) =
      some (joinLines ["xexport * from \"./use-x\";".data]) ∧
    List.count
      (exportStmt (fileBaseName (destPathOf ["proj".data] "src/hooks".data
        ⟨"use-x.ts".data, "hooks/use-x.ts".data⟩)))
      ["xexport * from \"./use-x\";".data] = 0 := by
  constructor
  · decide
  · decide

/-- C5 witness: the amended theorem applied to a concrete registry, hook and
one-line index `export * from "./other";`, every hypothesis discharged by
evaluation. -/
theorem c5_index_append_idempotent_witness :
    ∃ ls',
      ((installHook
          ⟨⟨"http://r".data, [⟨"use-x".data, "hooks/use-x".data⟩], some "3".data⟩,
            fun _ => ⟨"use-x".data, "useX".data, some "1.2.0".data,
              [⟨"use-x.ts".data, "hooks/use-x.ts".data⟩]⟩,
            fun _ => "X".data⟩
          "use-x".data "src/hooks".data true ⟨false, false, some false⟩
          ["proj".data]
          (installHook
            ⟨⟨"http://r".data, [⟨"use-x".data, "hooks/use-x".data⟩], some "3".data⟩,
              fun _ => ⟨"use-x".data, "useX".data, some "1.2.0".data,
                [⟨"use-x.ts".data, "hooks/use-x.ts".data⟩]⟩,
              fun _ => "X".data⟩
            "use-x".data "src/hooks".data true ⟨false, false, some false⟩
            ["proj".data]
            ⟨[(["proj".data, "src".data, "hooks".data, "index.ts".data],
              joinLines ["export * from \"./other\";".data])], none⟩).2).2).fs.lookup
        (indexPath ["proj".data] "src/hooks".data "index.ts".data) =
        some (joinLines ls') ∧
      List.count
        (exportStmt (fileBaseName (destPathOf ["proj".data] "src/hooks".data
          ⟨"use-x.ts".data, "hooks/use-x.ts".data⟩))) ls' = 1 ∧
      (containsSub
          (exportLine (fileBaseName (destPathOf ["proj".data] "src/hooks".data
            ⟨"use-x.ts".data, "hooks/use-x.ts".data⟩)))
          (joinLines ["export * from \"./other\";".data]) = true →
        ls' = ["export * from \"./other\";".data]) ∧
      (containsSub
          (exportLine (fileBaseName (destPathOf ["proj".data] "src/hooks".data
            ⟨"use-x.ts".data, "hooks/use-x.ts".data⟩)))
          (joinLines ["export * from \"./other\";".data]) = false →
        ls' = ["export * from \"./other\";".data] ++
          [exportStmt (fileBaseName (destPathOf ["proj".data] "src/hooks".data
            ⟨"use-x.ts".data, "hooks/use-x.ts".data⟩))]) :=
  c5_index_append_idempotent
    ⟨⟨"http://r".data, [⟨"use-x".data, "hooks/use-x".data⟩], some "3".data⟩,
      fun _ => ⟨"use-x".data, "useX".data, some "1.2.0".data,
        [⟨"use-x.ts".data, "hooks/use-x.ts".data⟩]⟩,
      fun _ => "X".data⟩
    "use-x".data "src/hooks".data false false ["proj".data]
    ⟨[(["proj".data, "src".data, "hooks".data, "index.ts".data],
      joinLines ["export * from \"./other\";".data])], none⟩
    ⟨"use-x".data, "hooks/use-x".data⟩
    ⟨"use-x.ts".data, "hooks/use-x.ts".data⟩
    ["export * from \"./other\";".data]
    (by decide) (by decide) (by decide) (by decide) (by decide) (by decide)
    (by decide) (by decide)

theorem getLast?_mem {α : Type} : ∀ (l : List α) (a : α), l.getLast? = some a → a ∈ l
  | [], a, h => by cases h
  | [b], a, h => by
    simp only [List.getLast?_singleton, Option.some.injEq] at h
    rw [h]
    exact List.mem_singleton.mpr rfl
  | b :: c :: t, a, h => by
    rw [List.getLast?_cons_cons] at h
    exact List.mem_cons_of_mem b (getLast?_mem (c :: t) a h)

theorem exportStmt_ne_nil (b : List Char) : exportStmt b ≠ [] := by
  unfold exportStmt
  intro h
  have := congrArg List.length h
  simp [List.length_append] at this

theorem pruneFold :
    ∀ (bs : List (List Char)) (ms : List (List Char)),
      (∀ l ∈ ms, termFree l) →
      (∀ b ∈ bs, termFree (exportStmt b)) →
      (∀ b ∈ bs, ∀ l ∈ ms, (exportStmt b).isPrefixOf l = true → l = exportStmt b) →
      bs.foldl (fun c b => pruneContent b c) (joinLines ms) =
        joinLines (bs.foldl (fun acc b => acc.erase (exportStmt b)) ms) := by
  intro bs
  induction bs with
  | nil => intro ms _ _ _; rfl
  | cons b rest ih =>
    intro ms hterm hSt hpre
    rw [List.foldl_cons, List.foldl_cons]
    have hb := remFirst_join (exportStmt b) (exportStmt_ne_nil b)
      (hSt b (List.mem_cons_self b rest)) ms
      (fun l hl => ⟨hterm l hl, hpre b (List.mem_cons_self b rest) l hl⟩)
    by_cases hmem : exportStmt b ∈ ms
    · rw [if_pos hmem] at hb
      have hp : pruneContent b (joinLines ms) = joinLines (ms.erase (exportStmt b)) := by
        unfold pruneContent
        rw [hb]
      rw [hp]
      exact ih (ms.erase (exportStmt b))
        (fun l hl => hterm l (List.mem_of_mem_erase hl))
        (fun d hd => hSt d (List.mem_cons_of_mem b hd))
        (fun d hd l hl => hpre d (List.mem_cons_of_mem b hd) l (List.mem_of_mem_erase hl))
    · rw [if_neg hmem] at hb
      have hp : pruneContent b (joinLines ms) = joinLines ms := by
        unfold pruneContent
        rw [hb]
      rw [hp, List.erase_of_not_mem hmem]
      exact ih ms hterm
        (fun d hd => hSt d (List.mem_cons_of_mem b hd))
        (fun d hd => hpre d (List.mem_cons_of_mem b hd))

theorem removeWorld_index (cwdP : Path) (baseDir : List Char)
    (files : List HookFile) (fs1 : FS) (ls1 : List (List Char))
    (hsep : ∀ f ∈ files,
      destPathOf cwdP baseDir f ≠ indexPath cwdP baseDir "index.ts".data ∧
      destPathOf cwdP baseDir f ≠ indexPath cwdP baseDir "index.js".data)
    (hpb : ∀ f ∈ files,
      plainBase (fileBaseName (destPathOf cwdP baseDir f)) = true)
    (hidx1 : fs1.lookup (indexPath cwdP baseDir "index.ts".data) =
      some (joinLines ls1))
    (hterm1 : ∀ l ∈ ls1, termFree l)
    (hbase : ∀ f ∈ files, termFree (fileBaseName (destPathOf cwdP baseDir f)))
    (hpre1 : ∀ f ∈ files, ∀ l ∈ ls1,
      (exportStmt (fileBaseName (destPathOf cwdP baseDir f))).isPrefixOf l = true →
      l = exportStmt (fileBaseName (destPathOf cwdP baseDir f)))
    (hcnt1 : ∀ f ∈ files,
      List.count (exportStmt (fileBaseName (destPathOf cwdP baseDir f))) ls1 ≤ 1) :
    (∀ f ∈ files,
      (files.foldl (removeFileStep cwdP baseDir) fs1).lookup
        (destPathOf cwdP baseDir f) = none) ∧
    (files.foldl (removeFileStep cwdP baseDir) fs1).lookup
        (indexPath cwdP baseDir "index.ts".data) =
      some (joinLines (ls1.filter (fun l =>
        !((files.map (fun f =>
          exportStmt (fileBaseName (destPathOf cwdP baseDir f)))).contains l)))) := by
  obtain ⟨h1, h2, _, _⟩ := removeFold cwdP baseDir files fs1 hsep hpb
  refine ⟨h1, ?_⟩
  rw [h2, hidx1, Option.map_some']
  have hfm : files.foldl (fun acc f =>
      pruneContent (fileBaseName (destPathOf cwdP baseDir f)) acc) (joinLines ls1) =
      (files.map (fun f => fileBaseName (destPathOf cwdP baseDir f))).foldl
        (fun c b => pruneContent b c) (joinLines ls1) := by
    rw [List.foldl_map]
  rw [hfm]
  rw [pruneFold (files.map (fun f => fileBaseName (destPathOf cwdP baseDir f))) ls1
    hterm1
    (fun b hb => by
      obtain ⟨f, hf, rfl⟩ := List.mem_map.mp hb
      exact exportStmt_termFree (hbase f hf))
    (fun b hb => by
      obtain ⟨f, hf, rfl⟩ := List.mem_map.mp hb
      exact hpre1 f hf)]
  rw [List.foldl_map]
  have hfm2 : files.foldl (fun acc f =>
      acc.erase (exportStmt (fileBaseName (destPathOf cwdP baseDir f)))) ls1 =
      (files.map (fun f =>
        exportStmt (fileBaseName (destPathOf cwdP baseDir f)))).foldl
        (fun acc S => acc.erase S) ls1 := by
    rw [List.foldl_map]
  rw [hfm2]
  rw [foldErase_eq_filter _ ls1 (fun S hS => by
    obtain ⟨f, hf, rfl⟩ := List.mem_map.mp hS
    exact hcnt1 f hf)]

/-- C3 (amended): install(id) followed by remove(id) with the same base
directory leaves no destination file of the hook, and the `index.ts` re-export
index afterwards holds exactly the initial lines with every line equal to one
of the hook's export statements filtered out — all other lines byte-for-byte
unchanged — provided the initial index is a sequence of newline-terminated
terminator-free lines, a line that starts with one of the hook's export
statements is that statement exactly and occurs at most once, the statements
appear only as whole lines, the hooks' base names contain no regex
metacharacters (`plainBase`: the base is interpolated unescaped into the
removal `RegExp`, so only then does the compiled pattern match the statement
literally — `compileRemove_plain`/`remFirstRe_std`), and destination/backup
paths do not collide with the two index paths.  Without the
newline-terminated-lines proviso the original claim fails (the deletion regex
only matches at start-of-line, so an index whose last line lacks a trailing
newline keeps the hook's statement glued to a foreign line), and without the
metacharacter proviso it fails again (base `use.x` deletes the foreign
`useQx` line and leaves its own); see the counterexample's two scenarios. -/
theorem c3_install_remove
    (env : Env) (hookId baseDir : List Char) (force sc : Bool) (cwdP : Path)
    (w : World) (entry : HookEntry) (flast : HookFile) (ls : List (List Char))
    (hfind : List.find? (fun h => h.id == hookId) env.registry.hooks = some entry)
    (hlast : (env.metaOf entry.path).files.getLast? = some flast)
    (hframe : ∀ f ∈ (env.metaOf entry.path).files,
      indexPath cwdP baseDir "index.ts".data ≠ destPathOf cwdP baseDir f ∧
      indexPath cwdP baseDir "index.ts".data ≠ bakPath (destPathOf cwdP baseDir f))
    (hsep : ∀ f ∈ (env.metaOf entry.path).files,
      destPathOf cwdP baseDir f ≠ indexPath cwdP baseDir "index.ts".data ∧
      destPathOf cwdP baseDir f ≠ indexPath cwdP baseDir "index.js".data)
    (hidx : w.fs.lookup (indexPath cwdP baseDir "index.ts".data) =
      some (joinLines ls))
    (hlines : ∀ l ∈ ls, termFree l)
    (hbase : ∀ f ∈ (env.metaOf entry.path).files,
      termFree (fileBaseName (destPathOf cwdP baseDir f)))
    (hplain : ∀ f ∈ (env.metaOf entry.path).files,
      plainBase (fileBaseName (destPathOf cwdP baseDir f)) = true)
    (hpre : ∀ f ∈ (env.metaOf entry.path).files, ∀ l ∈ ls,
      (exportStmt (fileBaseName (destPathOf cwdP baseDir f))).isPrefixOf l = true →
      l = exportStmt (fileBaseName (destPathOf cwdP baseDir f)))
    (hpre2 : ∀ f ∈ (env.metaOf entry.path).files,
      (exportStmt (fileBaseName (destPathOf cwdP baseDir f))).isPrefixOf
        (exportStmt (fileBaseName (destPathOf cwdP baseDir flast))) = true →
      exportStmt (fileBaseName (destPathOf cwdP baseDir flast)) =
        exportStmt (fileBaseName (destPathOf cwdP baseDir f)))
    (hcnt : ∀ f ∈ (env.metaOf entry.path).files,
      List.count (exportStmt (fileBaseName (destPathOf cwdP baseDir f))) ls ≤ 1) :
    (cmdRemove env hookId (some baseDir) cwdP
        (installHook env hookId baseDir true ⟨false, force, some sc⟩ cwdP w).2).1 =
      none ∧
    (∀ f ∈ (env.metaOf entry.path).files,
      (cmdRemove env hookId (some baseDir) cwdP
          (installHook env hookId baseDir true ⟨false, force, some sc⟩ cwdP
            w).2).2.fs.lookup (destPathOf cwdP baseDir f) = none) ∧
    (cmdRemove env hookId (some baseDir) cwdP
        (installHook env hookId baseDir true ⟨false, force, some sc⟩ cwdP
          w).2).2.fs.lookup (indexPath cwdP baseDir "index.ts".data) =
      some (joinLines (ls.filter (fun l =>
        !(((env.metaOf entry.path).files.map (fun f =>
          exportStmt (fileBaseName (destPathOf cwdP baseDir f)))).contains l)))) := by
  have hflastmem : flast ∈ (env.metaOf entry.path).files :=
    getLast?_mem _ flast hlast
  have h1 := installHook_fs_index env hookId baseDir force sc cwdP w entry flast
    hfind hlast hframe
  rw [hidx] at h1
  dsimp only at h1
  have hrem : cmdRemove env hookId (some baseDir) cwdP
      (installHook env hookId baseDir true ⟨false, force, some sc⟩ cwdP w).2 =
      (none, ⟨(env.metaOf entry.path).files.foldl (removeFileStep cwdP baseDir)
        (installHook env hookId baseDir true ⟨false, force, some sc⟩ cwdP w).2.fs,
        (installHook env hookId baseDir true ⟨false, force, some sc⟩ cwdP
          w).2.cfg⟩) := by
    unfold cmdRemove
    rw [hfind]
    rfl
  rw [hrem]
  refine ⟨rfl, ?_⟩
  cases hc : containsSub
      (exportLine (fileBaseName (destPathOf cwdP baseDir flast)))
      (joinLines ls) with
  | true =>
    rw [hc, if_pos rfl] at h1
    exact removeWorld_index cwdP baseDir _ _ ls hsep hplain h1 hlines hbase hpre
      hcnt
  | false =>
    rw [hc] at h1
    simp only [Bool.false_eq_true, if_false] at h1
    have hnotmem : exportStmt (fileBaseName (destPathOf cwdP baseDir flast)) ∉ ls := by
      intro hmem
      have h3 := containsSub_of_mem hmem
      rw [show exportStmt (fileBaseName (destPathOf cwdP baseDir flast)) ++ ['\n'] =
        exportLine (fileBaseName (destPathOf cwdP baseDir flast)) from rfl, hc] at h3
      cases h3
    have hjoin : joinLines ls ++
        exportLine (fileBaseName (destPathOf cwdP baseDir flast)) =
        joinLines (ls ++ [exportStmt (fileBaseName (destPathOf cwdP baseDir flast))]) := by
      rw [joinLines_append]
      simp [joinLines, exportLine]
    rw [hjoin] at h1
    have hres := removeWorld_index cwdP baseDir _ _
      (ls ++ [exportStmt (fileBaseName (destPathOf cwdP baseDir flast))]) hsep
      hplain h1
      (fun l hl => by
        rcases List.mem_append.mp hl with h | h
        · exact hlines l h
        · rw [List.mem_singleton.mp h]
          exact exportStmt_termFree (hbase flast hflastmem))
      hbase
      (fun f hf l hl hp => by
        rcases List.mem_append.mp hl with h | h
        · exact hpre f hf l h hp
        · rw [List.mem_singleton.mp h] at hp ⊢
          exact hpre2 f hf hp)
      (fun f hf => by
        rw [List.count_append]
        by_cases he : exportStmt (fileBaseName (destPathOf cwdP baseDir f)) =
            exportStmt (fileBaseName (destPathOf cwdP baseDir flast))
        · rw [he, List.count_eq_zero_of_not_mem hnotmem]
          simp
        · rw [List.count_eq_zero_of_not_mem
            (fun hm => he (List.mem_singleton.mp hm))]
          rw [Nat.add_zero]
          exact hcnt f hf)
    refine ⟨hres.1, ?_⟩
    rw [hres.2]
    congr 1
    rw [List.filter_append]
    have hfs : List.filter (fun l =>
        !(((env.metaOf entry.path).files.map (fun f =>
          exportStmt (fileBaseName (destPathOf cwdP baseDir f)))).contains l))
        [exportStmt (fileBaseName (destPathOf cwdP baseDir flast))] = [] := by
      simp
      exact ⟨flast, hflastmem, rfl⟩
    rw [hfs, List.append_nil]

/-- C3 counterexample, two independent failures of the original claim.
First: with initial index content `export * from "./other";` (no trailing
newline), install(use-x) appends its export line to the same physical line;
remove(use-x) then finds no start-of-line match, so the final index still
contains the hook's export statement, and the foreign line was not left
byte-for-byte unchanged.  Second: the base name is interpolated unescaped
into the removal `RegExp`, so for the hook `use.x` (a metacharacter base) the
live `.` makes the regex delete the foreign line `export * from "./useQx";`
while the hook's own export line survives in the index. -/
theorem c3_install_remove_counterexample :
    ((cmdRemove ⟨⟨"http://r".data, [⟨"use-x".data, "hooks/use-x".data⟩], some "3".data⟩,
          fun _ => ⟨"use-x".data, "useX".data, some "1.2.0".data,
            [⟨"use-x.ts".data, "hooks/use-x.ts".data⟩]⟩,
          fun _ => "X".data⟩ "use-x".data (some "src/hooks".data) ["proj".data]
        (installHook ⟨⟨"http://r".data, [⟨"use-x".data, "hooks/use-x".data⟩], some "3".data⟩,
          fun _ => ⟨"use-x".data, "useX".data, some "1.2.0".data,
            [⟨"use-x.ts".data, "hooks/use-x.ts".data⟩]⟩,
          fun _ => "X".data⟩
          "use-x".data "src/hooks".data true ⟨false, false, some false⟩
          ["proj".data]
          ⟨[(["proj".data, "src".data, "hooks".data, "index.ts".data],
            "export * from \"./other\";".data)], none⟩).2).2).fs.lookup
      (indexPath ["proj".data] "src/hooks".data "index.ts".data) =
      some "export * from \"./other\";export * from \"./use-x\";\n".data ∧
    containsSub (exportStmt "use-x".data)
      "export * from \"./other\";export * from \"./use-x\";\n".data = true ∧
    ((cmdRemove ⟨⟨"http://r".data, [⟨"use.x".data, "hooks/use.x".data⟩], some "3".data⟩,
          fun _ => ⟨"use.x".data, "useX".data, some "1.2.0".data,
            [⟨"use.x.ts".data, "hooks/use.x.ts".data⟩]⟩,
          fun _ => "X".data⟩ "use.x".data (some "src/hooks".data) ["proj".data]
        (installHook ⟨⟨"http://r".data, [⟨"use.x".data, "hooks/use.x".data⟩], some "3".data⟩,
          fun _ => ⟨"use.x".data, "useX".data, some "1.2.0".data,
            [⟨"use.x.ts".data, "hooks/use.x.ts".data⟩]⟩,
          fun _ => "X".data⟩
          "use.x".data "src/hooks".data true ⟨false, false, some false⟩
          ["proj".data]
          ⟨[(["proj".data, "src".data, "hooks".data, "index.ts".data],
            "export * from \"./useQx\";\n".data)], none⟩).2).2).fs.lookup
      (indexPath ["proj".data] "src/hooks".data "index.ts".data) =
      some "export * from \"./use.x\";\n".data := by
  refine ⟨?_, ?_, ?_⟩
  · decide
  · decide
  · decide

/-- C3 witness: the amended theorem applied to a concrete registry, hook and
newline-terminated one-line index, every hypothesis discharged by
evaluation. -/
theorem c3_install_remove_witness :
    (cmdRemove ⟨⟨"http://r".data, [⟨"use-x".data, "hooks/use-x".data⟩], some "3".data⟩,
          fun _ => ⟨"use-x".data, "useX".data, some "1.2.0".data,
            [⟨"use-x.ts".data, "hooks/use-x.ts".data⟩]⟩,
          fun _ => "X".data⟩ "use-x".data (some "src/hooks".data) ["proj".data]
        (installHook ⟨⟨"http://r".data, [⟨"use-x".data, "hooks/use-x".data⟩], some "3".data⟩,
          fun _ => ⟨"use-x".data, "useX".data, some "1.2.0".data,
            [⟨"use-x.ts".data, "hooks/use-x.ts".data⟩]⟩,
          fun _ => "X".data⟩
          "use-x".data "src/hooks".data true ⟨false, false, some false⟩
          ["proj".data]
          ⟨[(["proj".data, "src".data, "hooks".data, "index.ts".data],
            joinLines ["export * from \"./other\";".data])], none⟩).2).1 = none ∧
    (∀ f ∈ ((⟨⟨"http://r".data, [⟨"use-x".data, "hooks/use-x".data⟩], some "3".data⟩,
          fun _ => ⟨"use-x".data, "useX".data, some "1.2.0".data,
            [⟨"use-x.ts".data, "hooks/use-x.ts".data⟩]⟩,
          fun _ => "X".data⟩ : Env).metaOf "hooks/use-x".data).files,
      (cmdRemove ⟨⟨"http://r".data, [⟨"use-x".data, "hooks/use-x".data⟩], some "3".data⟩,
          fun _ => ⟨"use-x".data, "useX".data, some "1.2.0".data,
            [⟨"use-x.ts".data, "hooks/use-x.ts".data⟩]⟩,
          fun _ => "X".data⟩ "use-x".data (some "src/hooks".data) ["proj".data]
          (installHook ⟨⟨"http://r".data, [⟨"use-x".data, "hooks/use-x".data⟩], some "3".data⟩,
          fun _ => ⟨"use-x".data, "useX".data, some "1.2.0".data,
            [⟨"use-x.ts".data, "hooks/use-x.ts".data⟩]⟩,
          fun _ => "X".data⟩
            "use-x".data "src/hooks".data true ⟨false, false, some false⟩
            ["proj".data]
            ⟨[(["proj".data, "src".data, "hooks".data, "index.ts".data],
              joinLines ["export * from \"./other\";".data])], none⟩).2).2.fs.lookup
        (destPathOf ["proj".data] "src/hooks".data f) = none) ∧
    (cmdRemove ⟨⟨"http://r".data, [⟨"use-x".data, "hooks/use-x".data⟩], some "3".data⟩,
          fun _ => ⟨"use-x".data, "useX".data, some "1.2.0".data,
            [⟨"use-x.ts".data, "hooks/use-x.ts".data⟩]⟩,
          fun _ => "X".data⟩ "use-x".data (some "src/hooks".data) ["proj".data]
        (installHook ⟨⟨"http://r".data, [⟨"use-x".data, "hooks/use-x".data⟩], some "3".data⟩,
          fun _ => ⟨"use-x".data, "useX".data, some "1.2.0".data,
            [⟨"use-x.ts".data, "hooks/use-x.ts".data⟩]⟩,
          fun _ => "X".data⟩
          "use-x".data "src/hooks".data true ⟨false, false, some false⟩
          ["proj".data]
          ⟨[(["proj".data, "src".data, "hooks".data, "index.ts".data],
            joinLines ["export * from \"./other\";".data])], none⟩).2).2.fs.lookup
      (indexPath ["proj".data] "src/hooks".data "index.ts".data) =
      some (joinLines (["export * from \"./other\";".data].filter (fun l =>
        !((((⟨⟨"http://r".data, [⟨"use-x".data, "hooks/use-x".data⟩], some "3".data⟩,
          fun _ => ⟨"use-x".data, "useX".data, some "1.2.0".data,
            [⟨"use-x.ts".data, "hooks/use-x.ts".data⟩]⟩,
          fun _ => "X".data⟩ : Env).metaOf "hooks/use-x".data).files.map (fun f =>
          exportStmt (fileBaseName
            (destPathOf ["proj".data] "src/hooks".data f)))).contains l)))) :=
  c3_install_remove
    ⟨⟨"http://r".data, [⟨"use-x".data, "hooks/use-x".data⟩], some "3".data⟩,
          fun _ => ⟨"use-x".data, "useX".data, some "1.2.0".data,
            [⟨"use-x.ts".data, "hooks/use-x.ts".data⟩]⟩,
          fun _ => "X".data⟩
    "use-x".data "src/hooks".data false false ["proj".data]
    ⟨[(["proj".data, "src".data, "hooks".data, "index.ts".data],
      joinLines ["export * from \"./other\";".data])], none⟩
    ⟨"use-x".data, "hooks/use-x".data⟩
    ⟨"use-x.ts".data, "hooks/use-x.ts".data⟩
    ["export * from \"./other\";".data]
    (by decide) (by decide) (by decide) (by decide) (by decide) (by decide)
    (by decide) (by decide) (by decide) (by decide) (by decide)

theorem FS.lookup_isSome_of_mem (fs : FS) (p : Path)
    (h : p ∈ fs.map (fun e => e.1)) : (fs.lookup p).isSome = true := by
  obtain ⟨e, he, heq⟩ := List.mem_map.mp h
  unfold FS.lookup
  have hf : (List.find? (fun e => e.1 == p) fs).isSome = true :=
    List.find?_isSome.mpr ⟨e, he, by rw [beq_iff_eq, heq]⟩
  obtain ⟨x, hx⟩ := Option.isSome_iff_exists.mp hf
  rw [hx]
  rfl

theorem migCopyStep_lookup_ne (cwdP : Path) (newBaseDir : List Char)
    (acc : FS) (p : Path) (q : Path)
    (hq : q ≠ cwd2 cwdP newBaseDir (lastCompOf p)) :
    (migCopyStep cwdP newBaseDir acc p).lookup q = acc.lookup q := by
  unfold migCopyStep
  cases hs : acc.lookup p with
  | none => rfl
  | some c => simp [FS.lookup_write_ne _ _ hq]

theorem migrateFold (cwdP : Path) (newBaseDir : List Char) :
    ∀ (todo : List Path) (acc : FS),
      todo.Nodup →
      (∀ p ∈ todo, ∀ q ∈ todo, cwd2 cwdP newBaseDir (lastCompOf q) ≠ p) →
      (∀ p ∈ todo, ∀ q ∈ todo, p ≠ q →
        cwd2 cwdP newBaseDir (lastCompOf p) ≠ cwd2 cwdP newBaseDir (lastCompOf q)) →
      (∀ p ∈ todo, (acc.lookup p).isSome = true) →
      (∀ p ∈ todo,
        (todo.foldl (migCopyStep cwdP newBaseDir) acc).lookup p = acc.lookup p) ∧
      (∀ p ∈ todo,
        (todo.foldl (migCopyStep cwdP newBaseDir) acc).lookup
          (cwd2 cwdP newBaseDir (lastCompOf p)) = acc.lookup p) ∧
      (∀ q : Path, (∀ p ∈ todo, q ≠ cwd2 cwdP newBaseDir (lastCompOf p)) →
        (todo.foldl (migCopyStep cwdP newBaseDir) acc).lookup q = acc.lookup q) := by
  intro todo
  induction todo with
  | nil => exact fun acc _ _ _ _ =>
      ⟨fun p hp => absurd hp (List.not_mem_nil p),
       fun p hp => absurd hp (List.not_mem_nil p),
       fun q _ => rfl⟩
  | cons p rest ih =>
    intro acc hnodup hout hdisj hsome
    have hpmem : p ∈ p :: rest := List.mem_cons_self p rest
    obtain ⟨c, hc⟩ := Option.isSome_iff_exists.mp (hsome p hpmem)
    have hpnotrest : p ∉ rest := (List.nodup_cons.mp hnodup).1
    have hstep : migCopyStep cwdP newBaseDir acc p =
        acc.write (cwd2 cwdP newBaseDir (lastCompOf p)) c := by
      unfold migCopyStep
      rw [hc]
    -- sources are untouched by the step
    have hsrc : ∀ r ∈ p :: rest,
        (migCopyStep cwdP newBaseDir acc p).lookup r = acc.lookup r := by
      intro r hr
      rw [hstep, FS.lookup_write_ne _ _ (fun e => hout r hr p hpmem e.symm)]
    have IH := ih (migCopyStep cwdP newBaseDir acc p)
      (List.nodup_cons.mp hnodup).2
      (fun a ha b hb => hout a (List.mem_cons_of_mem p ha) b (List.mem_cons_of_mem p hb))
      (fun a ha b hb => hdisj a (List.mem_cons_of_mem p ha) b (List.mem_cons_of_mem p hb))
      (fun r hr => by
        rw [hsrc r (List.mem_cons_of_mem p hr)]
        exact hsome r (List.mem_cons_of_mem p hr))
    refine ⟨?_, ?_, ?_⟩
    · intro r hr
      rw [List.foldl_cons]
      rcases List.mem_cons.mp hr with hrp | hrr
      · rw [hrp]
        rw [IH.2.2 p (fun a ha e =>
          hout p hpmem a (List.mem_cons_of_mem p ha) e.symm)]
        exact hsrc p hpmem
      · rw [IH.1 r hrr]
        exact hsrc r (List.mem_cons_of_mem p hrr)
    · intro r hr
      rw [List.foldl_cons]
      rcases List.mem_cons.mp hr with hrp | hrr
      · rw [hrp]
        rw [IH.2.2 (cwd2 cwdP newBaseDir (lastCompOf p)) (fun a ha =>
          hdisj p hpmem a (List.mem_cons_of_mem p ha)
            (fun e => hpnotrest (e ▸ ha)))]
        rw [hstep, FS.lookup_write_self, hc]
      · rw [IH.2.1 r hrr]
        exact hsrc r (List.mem_cons_of_mem p hrr)
    · intro q hq
      rw [List.foldl_cons]
      rw [IH.2.2 q (fun a ha => hq a (List.mem_cons_of_mem p ha))]
      exact migCopyStep_lookup_ne cwdP newBaseDir acc p q (hq p hpmem)

/-- C7 (amended): with a non-blank new root, `cmdMigrate` is a no-op exactly
when the new root resolves to the configured root; otherwise it throws no
error, persists the configuration with `baseDir` set to the new root and every
other field preserved, and — provided the walked recognized files are distinct,
none of them coincides with any copy target, and the flat copy targets are
pairwise distinct — copies each walked `.ts`/`.js` file's content to
`cwd(newBaseDir, basename)`, leaves every walked old-root file unchanged and
touches no other path.  Without the target-collision proviso the original
claim fails: when the new root is nested inside the old one, a copy target can
be an old-root file, which is then overwritten (see the counterexample). -/
theorem c7_migrate (newBaseDir : List Char) (cwdP : Path) (w : World)
    (hnb : newBaseDir.all isWsJS = false)
    (hnodup : ((walkFiles w.fs
      (jsResolve cwdP (w.cfg.getD DEFAULT_CFG).baseDir)).filter
        recognizedExt).Nodup)
    (hout : ∀ p ∈ (walkFiles w.fs
        (jsResolve cwdP (w.cfg.getD DEFAULT_CFG).baseDir)).filter recognizedExt,
      ∀ q ∈ (walkFiles w.fs
        (jsResolve cwdP (w.cfg.getD DEFAULT_CFG).baseDir)).filter recognizedExt,
      cwd2 cwdP newBaseDir (lastCompOf q) ≠ p)
    (hdisj : ∀ p ∈ (walkFiles w.fs
        (jsResolve cwdP (w.cfg.getD DEFAULT_CFG).baseDir)).filter recognizedExt,
      ∀ q ∈ (walkFiles w.fs
        (jsResolve cwdP (w.cfg.getD DEFAULT_CFG).baseDir)).filter recognizedExt,
      p ≠ q →
      cwd2 cwdP newBaseDir (lastCompOf p) ≠ cwd2 cwdP newBaseDir (lastCompOf q)) :
    (jsResolve cwdP (w.cfg.getD DEFAULT_CFG).baseDir =
        jsResolve cwdP newBaseDir →
      cmdMigrate newBaseDir cwdP w = (none, w)) ∧
    (jsResolve cwdP (w.cfg.getD DEFAULT_CFG).baseDir ≠
        jsResolve cwdP newBaseDir →
      (cmdMigrate newBaseDir cwdP w).1 = none ∧
      (cmdMigrate newBaseDir cwdP w).2.cfg =
        some ⟨newBaseDir, (w.cfg.getD DEFAULT_CFG).addIndex,
          (w.cfg.getD DEFAULT_CFG).stripUseClient,
          (w.cfg.getD DEFAULT_CFG).aliasPrefix,
          (w.cfg.getD DEFAULT_CFG).aliasTarget⟩ ∧
      (∀ p ∈ (walkFiles w.fs
          (jsResolve cwdP (w.cfg.getD DEFAULT_CFG).baseDir)).filter recognizedExt,
        (cmdMigrate newBaseDir cwdP w).2.fs.lookup p = w.fs.lookup p) ∧
      (∀ p ∈ (walkFiles w.fs
          (jsResolve cwdP (w.cfg.getD DEFAULT_CFG).baseDir)).filter recognizedExt,
        (cmdMigrate newBaseDir cwdP w).2.fs.lookup
          (cwd2 cwdP newBaseDir (lastCompOf p)) = w.fs.lookup p) ∧
      (∀ q : Path,
        (∀ p ∈ (walkFiles w.fs
            (jsResolve cwdP (w.cfg.getD DEFAULT_CFG).baseDir)).filter
              recognizedExt,
          q ≠ cwd2 cwdP newBaseDir (lastCompOf p)) →
        (cmdMigrate newBaseDir cwdP w).2.fs.lookup q = w.fs.lookup q)) := by
  have hsome : ∀ p ∈ (walkFiles w.fs
      (jsResolve cwdP (w.cfg.getD DEFAULT_CFG).baseDir)).filter recognizedExt,
      (w.fs.lookup p).isSome = true := by
    intro p hp
    have h1 := List.mem_of_mem_filter hp
    unfold walkFiles at h1
    exact FS.lookup_isSome_of_mem w.fs p (List.mem_of_mem_filter h1)
  have hmig : cmdMigrate newBaseDir cwdP w =
      if jsResolve cwdP (w.cfg.getD DEFAULT_CFG).baseDir =
          jsResolve cwdP newBaseDir
      then (none, w)
      else (none, ⟨((walkFiles w.fs
          (jsResolve cwdP (w.cfg.getD DEFAULT_CFG).baseDir)).filter
            recognizedExt).foldl (migCopyStep cwdP newBaseDir) w.fs,
        some ⟨newBaseDir, (w.cfg.getD DEFAULT_CFG).addIndex,
          (w.cfg.getD DEFAULT_CFG).stripUseClient,
          (w.cfg.getD DEFAULT_CFG).aliasPrefix,
          (w.cfg.getD DEFAULT_CFG).aliasTarget⟩⟩) := by
    unfold cmdMigrate
    rw [hnb]
    rfl
  constructor
  · intro hres
    rw [hmig, if_pos hres]
  · intro hne
    rw [hmig, if_neg hne]
    obtain ⟨m1, m2, m3⟩ := migrateFold cwdP newBaseDir
      ((walkFiles w.fs
        (jsResolve cwdP (w.cfg.getD DEFAULT_CFG).baseDir)).filter recognizedExt)
      w.fs hnodup hout hdisj hsome
    exact ⟨rfl, rfl, m1, m2, m3⟩

/-- C7 counterexample: migrating `src/hooks` to the nested root
`src/hooks/sub` with files `a.ts` (content `A`) and `sub/a.ts` (content `B`)
overwrites the old-root file `sub/a.ts` with `A` — the old directory's files
are not left untouched. -/
theorem c7_migrate_counterexample :
    ((cmdMigrate "src/hooks/sub".data ["proj".data]
        ⟨[(["proj".data, "src".data, "hooks".data, "a.ts".data], "A".data),
          (["proj".data, "src".data, "hooks".data, "sub".data, "a.ts".data],
            "B".data)], none⟩).2).fs.lookup
      ["proj".data, "src".data, "hooks".data, "sub".data, "a.ts".data] =
      some "A".data := by decide

/-- C7 witness: the amended theorem applied to the spec's own example — a
migration from `src/hooks` to the disjoint root `src/shared/hooks` — with
every hypothesis discharged by evaluation. -/
theorem c7_migrate_witness :
    (jsResolve ["proj".data] (((⟨[(["proj".data, "src".data, "hooks".data, "use-x.ts".data], "X".data)], none⟩ : World).cfg.getD DEFAULT_CFG).baseDir) =
        jsResolve ["proj".data] "src/shared/hooks".data →
      cmdMigrate "src/shared/hooks".data ["proj".data] (⟨[(["proj".data, "src".data, "hooks".data, "use-x.ts".data], "X".data)], none⟩ : World) = (none, (⟨[(["proj".data, "src".data, "hooks".data, "use-x.ts".data], "X".data)], none⟩ : World))) ∧
    (jsResolve ["proj".data] (((⟨[(["proj".data, "src".data, "hooks".data, "use-x.ts".data], "X".data)], none⟩ : World).cfg.getD DEFAULT_CFG).baseDir) ≠
        jsResolve ["proj".data] "src/shared/hooks".data →
      (cmdMigrate "src/shared/hooks".data ["proj".data] (⟨[(["proj".data, "src".data, "hooks".data, "use-x.ts".data], "X".data)], none⟩ : World)).1 = none ∧
      (cmdMigrate "src/shared/hooks".data ["proj".data] (⟨[(["proj".data, "src".data, "hooks".data, "use-x.ts".data], "X".data)], none⟩ : World)).2.cfg =
        some ⟨"src/shared/hooks".data, ((⟨[(["proj".data, "src".data, "hooks".data, "use-x.ts".data], "X".data)], none⟩ : World).cfg.getD DEFAULT_CFG).addIndex,
          ((⟨[(["proj".data, "src".data, "hooks".data, "use-x.ts".data], "X".data)], none⟩ : World).cfg.getD DEFAULT_CFG).stripUseClient,
          ((⟨[(["proj".data, "src".data, "hooks".data, "use-x.ts".data], "X".data)], none⟩ : World).cfg.getD DEFAULT_CFG).aliasPrefix,
          ((⟨[(["proj".data, "src".data, "hooks".data, "use-x.ts".data], "X".data)], none⟩ : World).cfg.getD DEFAULT_CFG).aliasTarget⟩ ∧
      (∀ p ∈ (walkFiles (⟨[(["proj".data, "src".data, "hooks".data, "use-x.ts".data], "X".data)], none⟩ : World).fs
          (jsResolve ["proj".data] (((⟨[(["proj".data, "src".data, "hooks".data, "use-x.ts".data], "X".data)], none⟩ : World).cfg.getD DEFAULT_CFG).baseDir))).filter
            recognizedExt,
        (cmdMigrate "src/shared/hooks".data ["proj".data] (⟨[(["proj".data, "src".data, "hooks".data, "use-x.ts".data], "X".data)], none⟩ : World)).2.fs.lookup p =
          (⟨[(["proj".data, "src".data, "hooks".data, "use-x.ts".data], "X".data)], none⟩ : World).fs.lookup p) ∧
      (∀ p ∈ (walkFiles (⟨[(["proj".data, "src".data, "hooks".data, "use-x.ts".data], "X".data)], none⟩ : World).fs
          (jsResolve ["proj".data] (((⟨[(["proj".data, "src".data, "hooks".data, "use-x.ts".data], "X".data)], none⟩ : World).cfg.getD DEFAULT_CFG).baseDir))).filter
            recognizedExt,
        (cmdMigrate "src/shared/hooks".data ["proj".data] (⟨[(["proj".data, "src".data, "hooks".data, "use-x.ts".data], "X".data)], none⟩ : World)).2.fs.lookup
          (cwd2 ["proj".data] "src/shared/hooks".data (lastCompOf p)) =
          (⟨[(["proj".data, "src".data, "hooks".data, "use-x.ts".data], "X".data)], none⟩ : World).fs.lookup p) ∧
      (∀ q : Path,
        (∀ p ∈ (walkFiles (⟨[(["proj".data, "src".data, "hooks".data, "use-x.ts".data], "X".data)], none⟩ : World).fs
            (jsResolve ["proj".data] (((⟨[(["proj".data, "src".data, "hooks".data, "use-x.ts".data], "X".data)], none⟩ : World).cfg.getD DEFAULT_CFG).baseDir))).filter
              recognizedExt,
          q ≠ cwd2 ["proj".data] "src/shared/hooks".data (lastCompOf p)) →
        (cmdMigrate "src/shared/hooks".data ["proj".data] (⟨[(["proj".data, "src".data, "hooks".data, "use-x.ts".data], "X".data)], none⟩ : World)).2.fs.lookup q =
          (⟨[(["proj".data, "src".data, "hooks".data, "use-x.ts".data], "X".data)], none⟩ : World).fs.lookup q)) :=
  c7_migrate "src/shared/hooks".data ["proj".data] (⟨[(["proj".data, "src".data, "hooks".data, "use-x.ts".data], "X".data)], none⟩ : World)
    (by decide) (by decide) (by decide) (by decide)

end WkkkisHooks
